import Mathlib

/-!
Verification of the red-black tree engine of `dsav-core`
(`src/structures/rb_tree.rs`), against its specification.

The source manipulates a tree of `Rc<RefCell<Node>>` cells carrying
`value`, `color`, `left`, `right` and a non-owning `parent`
back-reference.  The embedding represents the tree of owned child links
as the inductive `PT`; whenever the source walks or mutates the tree at
some interior node, the embedding carries an explicit context: a list of
`Frame`s, innermost ancestor first, each recording the ancestor's value,
color, on which side the focused subtree hangs, and the ancestor's other
child.  The context is exactly the information the source reaches
through the `parent` chain; `Rc::ptr_eq` tests against a parent's child
become tests on the frame's recorded direction.
-/

namespace Dsav

/-- Source enum Color (rb_tree.rs lines 12-16). -/
inductive Color where
  | red
  | black
deriving DecidableEq, Repr

/-- Tree of nodes reachable from an optional node via the owning
left/right links (source struct Node, lines 18-25; nil stands for
Rust's None). -/
inductive PT where
  | nil
  | node (value : Int) (color : Color) (left right : PT)
deriving DecidableEq, Repr

namespace PT

/-- Source Node::is_red (lines 38-42): a missing node is not red. -/
def isRed : PT → Bool
  | node _ .red _ _ => true
  | _ => false

/-- Source Node::is_black (lines 44-46). -/
def isBlack (t : PT) : Bool := !t.isRed

/-- Write the color of an optional node, a no-op on a missing node
(the source guards such writes with if-let Some). -/
def setRootColor : PT → Color → PT
  | nil, _ => nil
  | node v _ l r, c => node v c l r

end PT

/-- Side of a parent on which a child hangs. -/
inductive Dir where
  | left
  | right
deriving DecidableEq, Repr

/-- One ancestor of the focused subtree: its own value and color, the
side on which the focus hangs, and its other child. -/
structure Frame where
  value : Int
  color : Color
  dir : Dir
  sibling : PT
deriving DecidableEq, Repr

/-- The ancestor chain of a focused subtree, innermost parent first.
This is the embedding of the source's parent back-references. -/
abbrev Ctx := List Frame

/-- Rebuild a parent node from its frame and the focused subtree. -/
def Frame.fill (f : Frame) (t : PT) : PT :=
  match f.dir with
  | .left => .node f.value f.color t f.sibling
  | .right => .node f.value f.color f.sibling t

/-- Rebuild the whole tree from a context and the focused subtree. -/
def plug : Ctx → PT → PT
  | [], t => t
  | f :: rest, t => plug rest (f.fill t)

/-- Source rotate_left (lines 245-279) as it acts on the subtree rooted
at the pivot.  The source additionally rewires the pivot's parent link
and the root pointer, which the embedding performs by plugging the
result back into the pivot's context.  A pivot without a right child is
returned unchanged (source early return). -/
def rotateLeftSub : PT → PT
  | .node xv xc xl (.node yv yc yl yr) => .node yv yc (.node xv xc xl yl) yr
  | t => t

/-- Source rotate_right (lines 282-316), mirror of rotateLeftSub. -/
def rotateRightSub : PT → PT
  | .node xv xc (.node yv yc yl yr) xr => .node yv yc yl (.node xv xc yr xr)
  | t => t

/-- Source insert_bst (lines 100-130): descend comparing the value,
recording each visited ancestor as a frame; answer the context of the
vacant slot where the new node is attached, or none on a duplicate. -/
def insertBstGo : PT → Int → Ctx → Option Ctx
  | .nil, _, ctx => some ctx
  | .node v c l r, value, ctx =>
    if value < v then insertBstGo l value (⟨v, c, .left, r⟩ :: ctx)
    else if v < value then insertBstGo r value (⟨v, c, .right, l⟩ :: ctx)
    else none

/-- The loop of source insert_fixup (lines 136-236).  The focus z is the
current node, ctx its ancestor chain.  Each arm mirrors one source case;
every exit plugs the focus back into the remaining context. -/
def insertFixupLoop : Ctx → PT → PT
  | [], z => z
  | ⟨fv, .black, fd, fs⟩ :: rest, z =>
    plug (⟨fv, .black, fd, fs⟩ :: rest) z
  | [⟨fv, .red, fd, fs⟩], z => plug [⟨fv, .red, fd, fs⟩] z
  | ⟨fv, .red, fd, fs⟩ :: ⟨gv, _gc, .left, gs⟩ :: rest2, z =>
    -- parent is the grandparent's left child; the uncle is gs
    if gs.isRed then
      -- Case 1: recolor parent and uncle black, grandparent red; z := grandparent
      insertFixupLoop rest2
        (Frame.fill ⟨gv, .red, .left, gs.setRootColor .black⟩
          (Frame.fill ⟨fv, .black, fd, fs⟩ z))
    else
      -- Case 2 (triangle, z is the parent's right child): left rotate at parent
      let psub := if fd = .right then rotateLeftSub (Frame.fill ⟨fv, .red, fd, fs⟩ z)
                  else Frame.fill ⟨fv, .red, fd, fs⟩ z
      -- Case 3 (line): recolor the new parent black and the grandparent red,
      -- right rotate at the grandparent, and stop
      plug rest2 (rotateRightSub
        (Frame.fill ⟨gv, .red, .left, gs⟩ (psub.setRootColor .black)))
  | ⟨fv, .red, fd, fs⟩ :: ⟨gv, _gc, .right, gs⟩ :: rest2, z =>
    -- mirror image: parent is the grandparent's right child
    if gs.isRed then
      insertFixupLoop rest2
        (Frame.fill ⟨gv, .red, .right, gs.setRootColor .black⟩
          (Frame.fill ⟨fv, .black, fd, fs⟩ z))
    else
      let psub := if fd = .left then rotateRightSub (Frame.fill ⟨fv, .red, fd, fs⟩ z)
                  else Frame.fill ⟨fv, .red, fd, fs⟩ z
      plug rest2 (rotateLeftSub
        (Frame.fill ⟨gv, .red, .right, gs⟩ (psub.setRootColor .black)))

/-- Source insert_fixup (lines 133-242): run the loop, then force the
root black. -/
def insertFixup (ctx : Ctx) (z : PT) : PT :=
  (insertFixupLoop ctx z).setRootColor .black

/-- Source struct VisualizableRBTree (lines 49-53). -/
structure VisualizableRBTree where
  root : PT
  size : Nat
deriving DecidableEq, Repr

namespace VisualizableRBTree

/-- Source VisualizableRBTree::new (lines 56-61). -/
def new : VisualizableRBTree := ⟨.nil, 0⟩

/-- Source is_empty (lines 67-69). -/
def isEmpty (t : VisualizableRBTree) : Bool := t.size == 0

/-- Source clear (lines 71-74). -/
def clear (_t : VisualizableRBTree) : VisualizableRBTree := ⟨.nil, 0⟩

/-- Source insert, the non-visualized version (lines 77-97). -/
def insert (t : VisualizableRBTree) (value : Int) : VisualizableRBTree :=
  match t.root with
  | .nil => { root := .node value .black .nil .nil, size := t.size + 1 }
  | root =>
    match insertBstGo root value [] with
    | none => t
    | some ctx =>
      { root := insertFixup ctx (.node value .red .nil .nil), size := t.size + 1 }

end VisualizableRBTree

/-- Source find_node (lines 332-346), additionally recording the path to
the located node as a context. -/
def findNodeGo : PT → Int → Ctx → Option (Ctx × PT)
  | .nil, _, _ => none
  | .node v c l r, value, ctx =>
    if value = v then some (ctx, .node v c l r)
    else if value < v then findNodeGo l value (⟨v, c, .left, r⟩ :: ctx)
    else findNodeGo r value (⟨v, c, .right, l⟩ :: ctx)

/-- Source tree_minimum (lines 444-454) with path recording; the nil arm
is unreachable since the source calls it on a present node. -/
def treeMinimumZ : PT → Ctx → Ctx × PT
  | .nil, ctx => (ctx, .nil)
  | .node v c .nil r, ctx => (ctx, .node v c .nil r)
  | .node v c (.node lv lc ll lr) r, ctx =>
    treeMinimumZ (.node lv lc ll lr) (⟨v, c, .left, r⟩ :: ctx)

/-- Whether the source treats x as its parent's left child (delete_fixup,
lines 461-467): parent.left is compared by pointer with x, and a missing
parent.left counts as left (the unwrap_or(true)). -/
def xIsLeftOf (f : Frame) : Bool :=
  match f.dir with
  | .left => true
  | .right =>
    match f.sibling with
    | .nil => true
    | _ => false

/-- One iteration of the loop body of source delete_fixup (lines
460-571), from the test of which child x is.  The head frame f is
x_parent, rest the remaining ancestors.  Answers inl of the new context
and focus when the loop continues (case 2), and inr of the final tree
when the body breaks or finishes a terminal case; the break answers
already force x black and plug it back, mirroring the source epilogue
(lines 574-577).

Note the source reads parent.left and parent.right by pointer; with a
frame f these are the focus when f.dir points at it and f.sibling
otherwise. -/
def deleteFixupStep (f : Frame) (rest : Ctx) (x : PT) : (Ctx × PT) ⊕ PT :=
  if xIsLeftOf f then
    -- x is (treated as) the left child; the sibling w is parent.right
    let pl : PT := match f.dir with | .left => x | .right => f.sibling
    let pr : PT := match f.dir with | .left => f.sibling | .right => x
    match pr with
    | .node wv .red wl wr =>
      -- Case 1 (sibling red): recolor w black and parent red, rotate left
      -- at the parent (making the parent red with new sibling wl, below a
      -- black node carrying wv), and refetch w as wl.
      match wl with
      | .nil =>
        .inr (plug (⟨f.value, .red, .left, .nil⟩ :: ⟨wv, .black, .left, wr⟩ :: rest)
          (x.setRootColor .black))
      | .node wv2 wc2 wl2 wr2 =>
        if !wl2.isRed && !wr2.isRed then
          -- Case 2: sibling and both nephews black: recolor w red, x moves up
          .inl (⟨wv, .black, .left, wr⟩ :: rest,
            .node f.value .red x (.node wv2 .red wl2 wr2))
        else
          -- Case 3 (far nephew black): recolor and rotate right at w
          let w3 :=
            if !wr2.isRed then
              rotateRightSub (.node wv2 .red (wl2.setRootColor .black) wr2)
            else .node wv2 wc2 wl2 wr2
          -- Case 4: w takes parent's color, parent and far nephew black,
          -- rotate left at parent; x becomes the root and the loop ends.
          match w3 with
          | .nil =>
            .inr ((plug (⟨f.value, .red, .left, .nil⟩ :: ⟨wv, .black, .left, wr⟩ :: rest)
              x).setRootColor .black)
          | .node v3 _ l3 r3 =>
            .inr ((plug (⟨wv, .black, .left, wr⟩ :: rest) (rotateLeftSub
              (.node f.value .black x
                (.node v3 .red l3 (r3.setRootColor .black))))).setRootColor .black)
    | .nil => .inr (plug (f :: rest) (x.setRootColor .black))
    | .node wv .black wl wr =>
      if !wl.isRed && !wr.isRed then
        -- Case 2: sibling and both nephews black: recolor w red, x moves up
        .inl (rest, .node f.value f.color pl (.node wv .red wl wr))
      else
        -- Case 3 (far nephew black): recolor and rotate right at w
        let w3 :=
          if !wr.isRed then
            rotateRightSub (.node wv .red (wl.setRootColor .black) wr)
          else .node wv .black wl wr
        -- Case 4: w takes parent's color, parent and far nephew black,
        -- rotate left at parent; x becomes the root and the loop ends.
        match w3 with
        | .nil => .inr ((plug rest (.node f.value f.color pl .nil)).setRootColor .black)
        | .node v3 _ l3 r3 =>
          .inr ((plug rest (rotateLeftSub
            (.node f.value .black pl
              (.node v3 f.color l3 (r3.setRootColor .black))))).setRootColor .black)
  else
    -- mirror image: x is the right child, w is parent.left (here f.dir is
    -- .right and the sibling is present, so parent.left is f.sibling)
    match f.sibling with
    | .node wv .red wl wr =>
      -- Case 1 (sibling red): recolor w black and parent red, rotate right
      -- at the parent, and refetch w as wr.
      match wr with
      | .nil =>
        .inr (plug (⟨f.value, .red, .right, .nil⟩ :: ⟨wv, .black, .right, wl⟩ :: rest)
          (x.setRootColor .black))
      | .node wv2 wc2 wl2 wr2 =>
        if !wl2.isRed && !wr2.isRed then
          .inl (⟨wv, .black, .right, wl⟩ :: rest,
            .node f.value .red (.node wv2 .red wl2 wr2) x)
        else
          let w3 :=
            if !wl2.isRed then
              rotateLeftSub (.node wv2 .red wl2 (wr2.setRootColor .black))
            else .node wv2 wc2 wl2 wr2
          match w3 with
          | .nil =>
            .inr ((plug (⟨f.value, .red, .right, .nil⟩ :: ⟨wv, .black, .right, wl⟩ :: rest)
              x).setRootColor .black)
          | .node v3 _ l3 r3 =>
            .inr ((plug (⟨wv, .black, .right, wl⟩ :: rest) (rotateRightSub
              (.node f.value .black
                (.node v3 .red (l3.setRootColor .black) r3) x))).setRootColor .black)
    | .nil => .inr (plug (f :: rest) (x.setRootColor .black))
    | .node wv .black wl wr =>
      if !wl.isRed && !wr.isRed then
        .inl (rest, .node f.value f.color (.node wv .red wl wr) x)
      else
        let w3 :=
          if !wl.isRed then
            rotateLeftSub (.node wv .red wl (wr.setRootColor .black))
          else .node wv .black wl wr
        match w3 with
        | .nil => .inr ((plug rest (.node f.value f.color .nil x)).setRootColor .black)
        | .node v3 _ l3 r3 =>
          .inr ((plug rest (rotateRightSub
            (.node f.value .black
              (.node v3 f.color (l3.setRootColor .black) r3) x))).setRootColor .black)

/-- Source delete_fixup (lines 457-578).  The focus x may be nil (the
phantom position tracked through x_parent in the source; the head frame
of the context is x_parent).  The loop runs while x is black or absent
and is not the root, one deleteFixupStep per iteration; every exit
forces x black and plugs it back (the step function already does so on
its break paths). -/
def deleteFixupLoop : Ctx → PT → PT
  | ctx, .node xv .red xl xr => plug ctx (.node xv .black xl xr)
  | [], x => x.setRootColor .black
  | f :: rest, .nil =>
    match h : deleteFixupStep f rest .nil with
    | .inl (ctx2, x2) => deleteFixupLoop ctx2 x2
    | .inr t => t
  | f :: rest, .node xv .black xl xr =>
    match h : deleteFixupStep f rest (.node xv .black xl xr) with
    | .inl (ctx2, x2) => deleteFixupLoop ctx2 x2
    | .inr t => t
termination_by ctx x => 2 * ctx.length + (if x.isRed then 0 else 1)
decreasing_by
  all_goals simp only [deleteFixupStep] at h
  all_goals (repeat' split at h) <;> (try cases h) <;> simp_all [PT.isRed] <;>
    (repeat' split) <;> omega

/-- Source delete_node (lines 349-412): determine the context of the
replacement x, the replacement itself, and the original color of the
physically removed node y. -/
def deleteNodeParts (zctx : Ctx) (z : PT) : Ctx × PT × Color :=
  match z with
  | .nil => (zctx, .nil, .red)
  | .node _zv zc zl zr =>
    match zl, zr with
    | .nil, _ => (zctx, zr, zc)
    | _, .nil => (zctx, zl, zc)
    | _, _ =>
      match treeMinimumZ zr [] with
      | (sctx, .node yv yc _ yr) => (sctx ++ ⟨yv, zc, .right, zl⟩ :: zctx, yr, yc)
      | (_, .nil) => (zctx, .nil, zc)

/-- Source delete_node (lines 349-412): splice, then fix up if the
removed color was black. -/
def deleteNode (zctx : Ctx) (z : PT) : PT :=
  match deleteNodeParts zctx z with
  | (xctx, x, .black) => deleteFixupLoop xctx x
  | (xctx, x, .red) => plug xctx x

/-- Source delete (lines 319-329): returns the new tree and whether the
value was found. -/
def VisualizableRBTree.delete (t : VisualizableRBTree) (value : Int) :
    VisualizableRBTree × Bool :=
  match findNodeGo t.root value [] with
  | none => (t, false)
  | some (ctx, z) => ({ root := deleteNode ctx z, size := t.size - 1 }, true)

/-- Source search_recursive (lines 585-599). -/
def searchRecursive : PT → Int → Bool
  | .nil, _ => false
  | .node v _ l r, value =>
    if value = v then true
    else if value < v then searchRecursive l value
    else searchRecursive r value

/-- Source search (lines 581-583). -/
def VisualizableRBTree.search (t : VisualizableRBTree) (value : Int) : Bool :=
  searchRecursive t.root value

/-- Source inorder_collect (lines 608-615). -/
def inorderCollect : PT → List Int
  | .nil => []
  | .node v _ l r => inorderCollect l ++ v :: inorderCollect r

/-- The tree states reachable from a freshly constructed tree by the
public insert and delete operations (the claims quantify over these). -/
inductive Reachable : VisualizableRBTree → Prop where
  | empty : Reachable VisualizableRBTree.new
  | insert {t : VisualizableRBTree} (v : Int) : Reachable t → Reachable (t.insert v)
  | delete {t : VisualizableRBTree} (v : Int) : Reachable t → Reachable (t.delete v).1

/-- Shallow model of the serde_json metadata values: every metadata
literal in the source is a flat object whose fields are booleans,
numbers, strings, or short arrays of numbers or strings. -/
inductive JVal where
  | bool (b : Bool)
  | num (n : Int)
  | str (s : String)
  | arrNum (xs : List Int)
  | arrStr (xs : List String)
deriving DecidableEq, Repr

/-- Source struct Step (traits.rs lines 7-13); metadata is the list of
object fields in source order. -/
structure Step where
  description : String
  highlightIndices : List Nat
  activeIndices : List Nat
  metadata : List (String × JVal)
deriving DecidableEq, Repr

/-- Source enum Operation (traits.rs lines 15-32). -/
inductive Operation where
  | insert (idx : Nat) (value : Int)
  | delete (idx : Nat)
  | search (value : Int)
  | binarySearch (value : Int)
  | traverse
  | preOrderTraverse
  | postOrderTraverse
  | levelOrderTraverse
  | push (value : Int)
  | pop
  | enqueue (value : Int)
  | dequeue
  | bubbleSort
  | insertionSort
  | quickSort
deriving DecidableEq, Repr

/-- Source enum DsavError (error.rs lines 7-29; the transparent anyhow
variant is never produced by the tree code and is omitted). -/
inductive DsavError where
  | indexOutOfBounds (index size : Nat)
  | emptyStructure
  | full (capacity : Nat)
  | notFound (value : Int)
  | invalidState (reason : String)
  | visualization (msg : String)
deriving DecidableEq, Repr

/-- Color word used in step descriptions. -/
def colorWord : Color → String
  | .red => "RED"
  | .black => "BLACK"

/-- Color word used in step metadata. -/
def colorJson : Color → String
  | .red => "red"
  | .black => "black"

/-- Position index of the focus of a context (root 0, left child 2i+1,
right child 2i+2).  The source computes the same number by searching the
tree for the node by pointer (find_node_index, lines 1719-1736); in a
tree without sharing the search yields exactly the node's position
index. -/
def idxOfCtx : Ctx → Nat
  | [] => 0
  | f :: rest => idxOfCtx rest * 2 + (match f.dir with | .left => 1 | .right => 2)

/-- Value at the root of a subtree (read only where the source holds a
live node, so the nil default is never observed). -/
def headValue : PT → Int
  | .nil => 0
  | .node v _ _ _ => v

/-- The BST descent of source insert_with_steps (lines 832-871): push one
comparison step per visited node, tracking the highlighted path and the
position index; answers the accumulated steps and the context and
position of the vacant slot, or none after pushing the duplicate step. -/
def insertDescend (value : Int) : PT → Ctx → List Nat → Nat → List Step →
    List Step × Option (Ctx × Nat)
  | .nil, ctx, _path, idx, steps => (steps, some (ctx, idx))
  | .node v c l r, ctx, path, idx, steps =>
    let path2 := path ++ [idx]
    let cw := colorWord c
    let cj := colorJson c
    let steps2 := steps ++ [{
      description := s!"Comparing {value} with {v} ({cw} node)",
      highlightIndices := path2, activeIndices := [],
      metadata := [("comparing", .arrNum [value, v]), ("node_color", .str cj)] }]
    if value < v then insertDescend value l (⟨v, c, .left, r⟩ :: ctx) path2 (idx * 2 + 1) steps2
    else if v < value then insertDescend value r (⟨v, c, .right, l⟩ :: ctx) path2 (idx * 2 + 2) steps2
    else
      (steps2 ++ [{
        description := s!"{value} already exists in tree (no duplicates allowed)",
        highlightIndices := path2, activeIndices := [],
        metadata := [("duplicate", .bool true)] }], none)

/-- The loop of source insert_fixup_with_steps (lines 1414-1674).  The
iteration counter it counts completed iterations; the source checks
iteration > 100 at the bottom of the loop body, which only the uncle-red
case reaches, and returns an InvalidState error there, leaving the tree
as mutated so far. -/
def insertFixupLoopSteps (ctx : Ctx) (z : PT) (steps : List Step) (it : Nat) :
    PT × Except DsavError (List Step) :=
  match ctx with
  | [] =>
    (plug [] z, .ok (steps ++ [{
      description := "Parent is BLACK or root reached - fixup complete",
      highlightIndices := [], activeIndices := [],
      metadata := [("fixup_end", .bool true)] }]))
  | f :: rest =>
    match f.color with
    | .black =>
      (plug (f :: rest) z, .ok (steps ++ [{
        description := "Parent is BLACK or root reached - fixup complete",
        highlightIndices := [], activeIndices := [],
        metadata := [("fixup_end", .bool true)] }]))
    | .red =>
      match rest with
      | [] => (plug [f] z, .ok steps)
      | g :: rest2 =>
        let zIdx := idxOfCtx (f :: g :: rest2)
        let parentIdx := idxOfCtx (g :: rest2)
        let gpIdx := idxOfCtx rest2
        let zVal := headValue z
        let parentVal := f.value
        let gpVal := g.value
        let gpCw := colorWord g.color
        let uncle := g.sibling
        let uncleIdx : Option Nat :=
          match g.dir, uncle with
          | _, .nil => none
          | .left, _ => some (gpIdx * 2 + 2)
          | .right, _ => some (gpIdx * 2 + 1)
        let uncleStr := match uncle with | .nil => "NIL" | .node v _ _ _ => toString v
        let uncleCw := if uncle.isRed then "RED" else "BLACK"
        let infoStep : Step := {
          description := s!"Current node: {zVal} (RED), Parent: {parentVal} (RED), Grandparent: {gpVal} ({gpCw}), Uncle: {uncleStr} ({uncleCw})",
          highlightIndices := [zIdx, parentIdx, gpIdx] ++ uncleIdx.toList,
          activeIndices := [],
          metadata := [("z", .num zVal), ("parent", .num parentVal),
            ("grandparent", .num gpVal), ("uncle_is_red", .bool uncle.isRed)] }
        match g.dir with
        | .left =>
          let steps2 := steps ++ [infoStep]
          if uncle.isRed then
            let steps3 := steps2 ++ [{
              description := "Case 1: Uncle is RED - Recolor parent and uncle to BLACK, grandparent to RED",
              highlightIndices := [parentIdx, gpIdx] ++ uncleIdx.toList,
              activeIndices := [],
              metadata := [("case", .str "uncle_red"),
                ("recolor", .arrStr ["parent", "uncle", "grandparent"])] }]
            let z2 : PT :=
              Frame.fill { g with color := .red, sibling := uncle.setRootColor .black }
                (Frame.fill { f with color := .black } z)
            if it + 1 > 100 then
              (plug rest2 z2, .error (.invalidState "Fixup loop exceeded maximum iterations"))
            else
              insertFixupLoopSteps rest2 z2 steps3 (it + 1)
          else
            let zIsRight := f.dir = .right
            let steps3 :=
              if zIsRight then
                steps2 ++ [{
                  description := s!"Case 2: Triangle configuration - Left rotate at parent ({parentVal})",
                  highlightIndices := [zIdx, parentIdx], activeIndices := [],
                  metadata := [("case", .str "triangle"), ("rotation", .str "left"),
                    ("pivot", .num parentVal)] }]
              else steps2
            let psub := if zIsRight then rotateLeftSub (f.fill z) else f.fill z
            let steps4 := steps3 ++ [{
              description := s!"Case 3: Line configuration - Recolor parent to BLACK, grandparent to RED, then right rotate at grandparent ({gpVal})",
              highlightIndices := [parentIdx, gpIdx], activeIndices := [],
              metadata := [("case", .str "line"), ("rotation", .str "right"),
                ("pivot", .num gpVal)] }]
            (plug rest2 (rotateRightSub
              (Frame.fill { g with color := .red } (psub.setRootColor .black))), .ok steps4)
        | .right =>
          let steps2 := steps ++ [infoStep]
          if uncle.isRed then
            let steps3 := steps2 ++ [{
              description := "Case 1 (Mirror): Uncle is RED - Recolor parent and uncle to BLACK, grandparent to RED",
              highlightIndices := [parentIdx, gpIdx] ++ uncleIdx.toList,
              activeIndices := [],
              metadata := [("case", .str "uncle_red_mirror"),
                ("recolor", .arrStr ["parent", "uncle", "grandparent"])] }]
            let z2 : PT :=
              Frame.fill { g with color := .red, sibling := uncle.setRootColor .black }
                (Frame.fill { f with color := .black } z)
            if it + 1 > 100 then
              (plug rest2 z2, .error (.invalidState "Fixup loop exceeded maximum iterations"))
            else
              insertFixupLoopSteps rest2 z2 steps3 (it + 1)
          else
            let zIsLeft := f.dir = .left
            let steps3 :=
              if zIsLeft then
                steps2 ++ [{
                  description := s!"Case 2 (Mirror): Triangle configuration - Right rotate at parent ({parentVal})",
                  highlightIndices := [zIdx, parentIdx], activeIndices := [],
                  metadata := [("case", .str "triangle_mirror"), ("rotation", .str "right"),
                    ("pivot", .num parentVal)] }]
              else steps2
            let psub := if zIsLeft then rotateRightSub (f.fill z) else f.fill z
            let steps4 := steps3 ++ [{
              description := s!"Case 3 (Mirror): Line configuration - Recolor parent to BLACK, grandparent to RED, then left rotate at grandparent ({gpVal})",
              highlightIndices := [parentIdx, gpIdx], activeIndices := [],
              metadata := [("case", .str "line_mirror"), ("rotation", .str "left"),
                ("pivot", .num gpVal)] }]
            (plug rest2 (rotateLeftSub
              (Frame.fill { g with color := .red } (psub.setRootColor .black))), .ok steps4)
termination_by 101 - it
decreasing_by all_goals omega

/-- Source insert_fixup_with_steps tail (lines 1676-1689): after the
loop, a red root is forced black with a step. -/
def insertFixupSteps (ctx : Ctx) (z : PT) (steps : List Step) :
    PT × Except DsavError (List Step) :=
  match insertFixupLoopSteps ctx z steps 0 with
  | (tree, .error e) => (tree, .error e)
  | (tree, .ok steps2) =>
    match tree with
    | .node v .red l r =>
      (.node v .black l r, .ok (steps2 ++ [{
        description := "Forcing root to BLACK (RB property)",
        highlightIndices := [0], activeIndices := [],
        metadata := [("root_recolor", .bool true)] }]))
    | tree => (tree, .ok steps2)

/-- Source insert_with_steps (lines 800-912). -/
def insertWithSteps (t : VisualizableRBTree) (value : Int) :
    VisualizableRBTree × Except DsavError (List Step) :=
  let steps : List Step := [{
    description := s!"Inserting {value} into Red-Black Tree",
    highlightIndices := [], activeIndices := [],
    metadata := [("operation", .str "insert"), ("value", .num value)] }]
  match t.root with
  | .nil =>
    ({ root := .node value .black .nil .nil, size := t.size + 1 },
      .ok (steps ++ [{
        description := s!"Tree is empty, {value} becomes BLACK root",
        highlightIndices := [], activeIndices := [0],
        metadata := [("new_root", .num value), ("color", .str "black")] }]))
  | root =>
    match insertDescend value root [] [] 0 steps with
    | (steps2, none) => (t, .ok steps2)
    | (steps2, some (ctx, insertIdx)) =>
      let steps3 := steps2 ++ [{
        description := s!"Inserted {value} as RED node",
        highlightIndices := [], activeIndices := [insertIdx],
        metadata := [("inserted", .num value), ("color", .str "red"),
          ("index", .num (insertIdx : Int))] }]
      match insertFixupSteps ctx (.node value .red .nil .nil) steps3 with
      | (root2, .error e) => ({ root := root2, size := t.size + 1 }, .error e)
      | (root2, .ok steps4) =>
        ({ root := root2, size := t.size + 1 },
          .ok (steps4 ++ [{
            description := "Red-Black Tree properties restored",
            highlightIndices := [], activeIndices := [],
            metadata := [("fixup_complete", .bool true)] }]))

/-- One pass of the loop body of source delete_fixup_with_steps (lines
1126-1322), the step-emitting analog of deleteFixupStep: .inl means the
loop continues with a new context, focus and step list, .inr is the
loop's final tree and steps.  The iteration counter it counts completed
iterations and appears in the step metadata; the source counts it but
never checks it against any bound, so no error path exists. -/
def deleteFixupStepSteps (f : Frame) (rest : Ctx) (x : PT) (steps : List Step) (it : Nat) :
    (Ctx × PT × List Step) ⊕ (PT × List Step) :=
  let it1 := Int.ofNat (it + 1)
  if xIsLeftOf f then
    let pl : PT := match f.dir with | .left => x | .right => f.sibling
    let pr : PT := match f.dir with | .left => f.sibling | .right => x
    match pr with
    | .node wv .red wl wr =>
      -- Case 1 (sibling red)
      let wIdx1 := idxOfCtx rest * 2 + 2
      let step1 : Step := {
        description := s!"Case 1: Sibling {wv} is RED, recoloring and rotating",
        highlightIndices := [wIdx1], activeIndices := [],
        metadata := [("case", .str "sibling_red"), ("iteration", .num it1)] }
      let steps1 := steps ++ [step1]
      let tail2 : Ctx := ⟨wv, .black, .left, wr⟩ :: rest
      let wIdx2 := idxOfCtx tail2 * 2 + 2
      match wl with
      | .nil =>
        .inr (plug (⟨f.value, .red, .left, .nil⟩ :: tail2) (x.setRootColor .black), steps1)
      | .node wv2 wc2 wl2 wr2 =>
        if !wl2.isRed && !wr2.isRed then
          let step2 : Step := {
            description := "Case 2: Sibling's children are BLACK, recoloring sibling to RED",
            highlightIndices := [wIdx2], activeIndices := [],
            metadata := [("case", .str "both_children_black"), ("iteration", .num it1)] }
          .inl (tail2, .node f.value .red x (.node wv2 .red wl2 wr2), steps1 ++ [step2])
        else
          let steps3 :=
            if !wr2.isRed then
              steps1 ++ [{
                description := "Case 3: Sibling's right child BLACK, left RED - rotating",
                highlightIndices := [wIdx2], activeIndices := [],
                metadata := [("case", .str "triangle"), ("iteration", .num it1)] }]
            else steps1
          let w3 :=
            if !wr2.isRed then
              rotateRightSub (.node wv2 .red (wl2.setRootColor .black) wr2)
            else .node wv2 wc2 wl2 wr2
          let steps4 := steps3 ++ [{
            description := "Case 4: Sibling's right child is RED, final rotation",
            highlightIndices := [], activeIndices := [],
            metadata := [("case", .str "line"), ("iteration", .num it1)] }]
          match w3 with
          | .nil =>
            .inr ((plug (⟨f.value, .red, .left, .nil⟩ :: tail2) x).setRootColor .black, steps4)
          | .node v3 _ l3 r3 =>
            .inr ((plug tail2 (rotateLeftSub
              (.node f.value .black x
                (.node v3 .red l3 (r3.setRootColor .black))))).setRootColor .black, steps4)
    | .nil => .inr (plug (f :: rest) (x.setRootColor .black), steps)
    | .node wv .black wl wr =>
      let wIdx0 := idxOfCtx rest * 2 + 2
      if !wl.isRed && !wr.isRed then
        let step2 : Step := {
          description := "Case 2: Sibling's children are BLACK, recoloring sibling to RED",
          highlightIndices := [wIdx0], activeIndices := [],
          metadata := [("case", .str "both_children_black"), ("iteration", .num it1)] }
        .inl (rest, .node f.value f.color pl (.node wv .red wl wr), steps ++ [step2])
      else
        let steps3 :=
          if !wr.isRed then
            steps ++ [{
              description := "Case 3: Sibling's right child BLACK, left RED - rotating",
              highlightIndices := [wIdx0], activeIndices := [],
              metadata := [("case", .str "triangle"), ("iteration", .num it1)] }]
          else steps
        let w3 :=
          if !wr.isRed then
            rotateRightSub (.node wv .red (wl.setRootColor .black) wr)
          else .node wv .black wl wr
        let steps4 := steps3 ++ [{
          description := "Case 4: Sibling's right child is RED, final rotation",
          highlightIndices := [], activeIndices := [],
          metadata := [("case", .str "line"), ("iteration", .num it1)] }]
        match w3 with
        | .nil => .inr ((plug rest (.node f.value f.color pl .nil)).setRootColor .black, steps4)
        | .node v3 _ l3 r3 =>
          .inr ((plug rest (rotateLeftSub
            (.node f.value .black pl
              (.node v3 f.color l3 (r3.setRootColor .black))))).setRootColor .black, steps4)
  else
    -- mirror image: x is the right child, w is parent.left
    match f.sibling with
    | .node wv .red wl wr =>
      let wIdx1 := idxOfCtx rest * 2 + 1
      let step1 : Step := {
        description := s!"Case 1 (mirror): Sibling {wv} is RED, recoloring and rotating",
        highlightIndices := [wIdx1], activeIndices := [],
        metadata := [("case", .str "sibling_red_mirror"), ("iteration", .num it1)] }
      let steps1 := steps ++ [step1]
      let tail2 : Ctx := ⟨wv, .black, .right, wl⟩ :: rest
      let wIdx2 := idxOfCtx tail2 * 2 + 1
      match wr with
      | .nil =>
        .inr (plug (⟨f.value, .red, .right, .nil⟩ :: tail2) (x.setRootColor .black), steps1)
      | .node wv2 wc2 wl2 wr2 =>
        if !wl2.isRed && !wr2.isRed then
          let step2 : Step := {
            description := "Case 2 (mirror): Sibling's children are BLACK, recoloring",
            highlightIndices := [wIdx2], activeIndices := [],
            metadata := [("case", .str "both_children_black_mirror"), ("iteration", .num it1)] }
          .inl (tail2, .node f.value .red (.node wv2 .red wl2 wr2) x, steps1 ++ [step2])
        else
          let steps3 :=
            if !wl2.isRed then
              steps1 ++ [{
                description := "Case 3 (mirror): Sibling's left child BLACK, right RED - rotating",
                highlightIndices := [wIdx2], activeIndices := [],
                metadata := [("case", .str "triangle_mirror"), ("iteration", .num it1)] }]
            else steps1
          let w3 :=
            if !wl2.isRed then
              rotateLeftSub (.node wv2 .red wl2 (wr2.setRootColor .black))
            else .node wv2 wc2 wl2 wr2
          let steps4 := steps3 ++ [{
            description := "Case 4 (mirror): Sibling's left child is RED, final rotation",
            highlightIndices := [], activeIndices := [],
            metadata := [("case", .str "line_mirror"), ("iteration", .num it1)] }]
          match w3 with
          | .nil =>
            .inr ((plug (⟨f.value, .red, .right, .nil⟩ :: tail2) x).setRootColor .black, steps4)
          | .node v3 _ l3 r3 =>
            .inr ((plug tail2 (rotateRightSub
              (.node f.value .black
                (.node v3 .red (l3.setRootColor .black) r3) x))).setRootColor .black, steps4)
    | .nil => .inr (plug (f :: rest) (x.setRootColor .black), steps)
    | .node wv .black wl wr =>
      let wIdx0 := idxOfCtx rest * 2 + 1
      if !wl.isRed && !wr.isRed then
        let step2 : Step := {
          description := "Case 2 (mirror): Sibling's children are BLACK, recoloring",
          highlightIndices := [wIdx0], activeIndices := [],
          metadata := [("case", .str "both_children_black_mirror"), ("iteration", .num it1)] }
        .inl (rest, .node f.value f.color (.node wv .red wl wr) x, steps ++ [step2])
      else
        let steps3 :=
          if !wl.isRed then
            steps ++ [{
              description := "Case 3 (mirror): Sibling's left child BLACK, right RED - rotating",
              highlightIndices := [wIdx0], activeIndices := [],
              metadata := [("case", .str "triangle_mirror"), ("iteration", .num it1)] }]
          else steps
        let w3 :=
          if !wl.isRed then
            rotateLeftSub (.node wv .red wl (wr.setRootColor .black))
          else .node wv .black wl wr
        let steps4 := steps3 ++ [{
          description := "Case 4 (mirror): Sibling's left child is RED, final rotation",
          highlightIndices := [], activeIndices := [],
          metadata := [("case", .str "line_mirror"), ("iteration", .num it1)] }]
        match w3 with
        | .nil => .inr ((plug rest (.node f.value f.color .nil x)).setRootColor .black, steps4)
        | .node v3 _ l3 r3 =>
          .inr ((plug rest (rotateRightSub
            (.node f.value .black
              (.node v3 f.color (l3.setRootColor .black) r3) x))).setRootColor .black, steps4)

/-- The loop of source delete_fixup_with_steps (lines 1126-1322), the
step-emitting analog of deleteFixupLoop: while x is a non-root BLACK
focus, run one pass of the loop body; a RED focus is blackened and the
loop exits, and at the root the focus is blackened. -/
def deleteFixupLoopSteps : Ctx → PT → List Step → Nat → PT × List Step
  | ctx, .node xv .red xl xr, steps, _it => (plug ctx (.node xv .black xl xr), steps)
  | [], x, steps, _it => (x.setRootColor .black, steps)
  | f :: rest, .nil, steps, it =>
    match h : deleteFixupStepSteps f rest .nil steps it with
    | .inl (ctx2, x2, steps2) => deleteFixupLoopSteps ctx2 x2 steps2 (it + 1)
    | .inr r => r
  | f :: rest, .node xv .black xl xr, steps, it =>
    match h : deleteFixupStepSteps f rest (.node xv .black xl xr) steps it with
    | .inl (ctx2, x2, steps2) => deleteFixupLoopSteps ctx2 x2 steps2 (it + 1)
    | .inr r => r
termination_by ctx x => 2 * ctx.length + (if x.isRed then 0 else 1)
decreasing_by
  all_goals simp only [deleteFixupStepSteps] at h
  all_goals (repeat' split at h) <;> (try cases h) <;> simp_all [PT.isRed] <;>
    (repeat' split) <;> omega

/-- Source delete_fixup_with_steps (lines 1120-1338): run the loop, then
record completion.  The Rust function returns a Result but constructs no
error; the Except type mirrors the signature. -/
def deleteFixupSteps (ctx : Ctx) (x : PT) (steps : List Step) :
    PT × Except DsavError (List Step) :=
  match deleteFixupLoopSteps ctx x steps 0 with
  | (tree, steps2) =>
    (tree, .ok (steps2 ++ [{
      description := "Delete fixup complete, Red-Black properties restored",
      highlightIndices := [], activeIndices := [],
      metadata := [("fixup_complete", .bool true)] }]))

/-- Source delete_node_with_steps (lines 973-1117). -/
def deleteNodeWithSteps (zctx : Ctx) (z : PT) (steps : List Step) :
    PT × Except DsavError (List Step) :=
  let zIdx := idxOfCtx zctx
  let zVal := headValue z
  match z with
  | .nil => (plug zctx .nil, .ok steps)
  | .node _ zc zl zr =>
    let parts : Ctx × PT × Color × List Step :=
      match zl, zr with
      | .nil, .nil =>
        (zctx, .nil, zc, steps ++ [{
          description := s!"Node {zVal} is a leaf, removing it directly",
          highlightIndices := [], activeIndices := [zIdx],
          metadata := [("case", .str "no_children"), ("node", .num zVal)] }])
      | .nil, _ =>
        let rightVal := headValue zr
        (zctx, zr, zc, steps ++ [{
          description := s!"Node {zVal} has only right child {rightVal}, replacing with right child",
          highlightIndices := [], activeIndices := [zIdx],
          metadata := [("case", .str "only_right_child"), ("node", .num zVal),
            ("replacement", .num rightVal)] }])
      | _, .nil =>
        let leftVal := headValue zl
        (zctx, zl, zc, steps ++ [{
          description := s!"Node {zVal} has only left child {leftVal}, replacing with left child",
          highlightIndices := [], activeIndices := [zIdx],
          metadata := [("case", .str "only_left_child"), ("node", .num zVal),
            ("replacement", .num leftVal)] }])
      | _, _ =>
        match treeMinimumZ zr [] with
        | (sctx, .node yv yc _ yr) =>
          let yIdxBefore := idxOfCtx (sctx ++ ⟨zVal, zc, .right, zl⟩ :: zctx)
          let stepA : Step := {
            description := s!"Node {zVal} has two children, finding successor {yv}",
            highlightIndices := [yIdxBefore], activeIndices := [zIdx],
            metadata := [("case", .str "two_children"), ("node", .num zVal),
              ("successor", .num yv)] }
          let stepB : Step := {
            description := s!"Replaced {zVal} with successor {yv}",
            highlightIndices := [], activeIndices := [zIdx],
            metadata := [("replaced", .num zVal), ("with", .num yv)] }
          (sctx ++ ⟨yv, zc, .right, zl⟩ :: zctx, yr, yc, steps ++ [stepA, stepB])
        | (_, .nil) => (zctx, .nil, zc, steps)
    match parts with
    | (xctx, x, .black, steps2) =>
      deleteFixupSteps xctx x (steps2 ++ [{
        description := "A BLACK node was removed, fixing Red-Black properties",
        highlightIndices := [], activeIndices := [],
        metadata := [("fixup_needed", .bool true), ("deleted_color", .str "black")] }])
    | (xctx, x, .red, steps2) =>
      (plug xctx x, .ok (steps2 ++ [{
        description := "A RED node was removed, no fixup needed",
        highlightIndices := [], activeIndices := [],
        metadata := [("fixup_needed", .bool false), ("deleted_color", .str "red")] }]))

/-- Source delete_with_steps (lines 915-970). -/
def deleteWithSteps (t : VisualizableRBTree) (value : Int) :
    VisualizableRBTree × Except DsavError (List Step) :=
  let steps : List Step := [{
    description := s!"Deleting {value} from Red-Black Tree",
    highlightIndices := [], activeIndices := [],
    metadata := [("operation", .str "delete"), ("value", .num value)] }]
  match findNodeGo t.root value [] with
  | none =>
    (t, .ok (steps ++ [{
      description := s!"Value {value} not found in tree",
      highlightIndices := [], activeIndices := [],
      metadata := [("found", .bool false)] }]))
  | some (zctx, z) =>
    let zIdx := idxOfCtx zctx
    let steps2 := steps ++ [{
      description := s!"Found {value} in the tree",
      highlightIndices := [zIdx], activeIndices := [],
      metadata := [("found", .bool true), ("index", .num (zIdx : Int))] }]
    match deleteNodeWithSteps zctx z steps2 with
    | (root2, .error e) => ({ root := root2, size := t.size }, .error e)
    | (root2, .ok steps3) =>
      ({ root := root2, size := t.size - 1 },
        .ok (steps3 ++ [{
          description := s!"Deletion of {value} complete",
          highlightIndices := [], activeIndices := [],
          metadata := [("complete", .bool true)] }]))

/-- The search loop of source execute_with_steps (lines 653-716). -/
def searchLoop (target : Int) : PT → Nat → List Step → List Step
  | .nil, _, steps =>
    steps ++ [{
      description := s!"Value {target} not found in tree",
      highlightIndices := [], activeIndices := [],
      metadata := [("found", .bool false)] }]
  | .node v c l r, idx, steps =>
    let cw := colorWord c
    let steps2 := steps ++ [{
      description := s!"Checking {cw} node with value {v}",
      highlightIndices := [idx], activeIndices := [],
      metadata := [("node_color", .str (colorJson c))] }]
    if target = v then
      steps2 ++ [{
        description := s!"Found {target} at node",
        highlightIndices := [], activeIndices := [idx],
        metadata := [("found", .bool true), ("index", .num (idx : Int))] }]
    else if target < v then searchLoop target l (idx * 2 + 1) steps2
    else searchLoop target r (idx * 2 + 2) steps2

/-- Source inorder_traverse_steps (lines 1692-1716). -/
def inorderTraverseSteps : PT → Nat → List Step
  | .nil, _ => []
  | .node v c l r, idx =>
    let cw := colorWord c
    inorderTraverseSteps l (idx * 2 + 1)
      ++ [{
        description := s!"Visiting {cw} node with value {v}",
        highlightIndices := [idx], activeIndices := [],
        metadata := [("value", .num v), ("color", .str (colorJson c)),
          ("index", .num (idx : Int))] }]
      ++ inorderTraverseSteps r (idx * 2 + 2)

/-- Source enum ElementState (state.rs lines 17-25). -/
inductive ElementState where
  | normal
  | highlighted
  | active
  | sorted
  | comparing
  | swapping
deriving DecidableEq, Repr

/-- Source struct RenderElement (state.rs lines 9-15). -/
structure RenderElement where
  value : Int
  state : ElementState
  label : String
  sublabel : String
deriving DecidableEq, Repr

/-- Source RenderElement::new (state.rs lines 28-35). -/
def RenderElement.new (value : Int) : RenderElement :=
  { value := value, state := .normal, label := toString value, sublabel := "" }

/-- Source RenderElement::with_label (state.rs lines 37-40). -/
def RenderElement.withLabel (e : RenderElement) (label : String) : RenderElement :=
  { e with label := label }

/-- Source RenderElement::with_sublabel (state.rs lines 42-45). -/
def RenderElement.withSublabel (e : RenderElement) (sublabel : String) : RenderElement :=
  { e with sublabel := sublabel }

/-- Source RenderElement::with_state (state.rs lines 47-50). -/
def RenderElement.withState (e : RenderElement) (state : ElementState) : RenderElement :=
  { e with state := state }

/-- Source struct RenderState (state.rs lines 3-7). -/
structure RenderState where
  elements : List RenderElement
  connections : List (Nat × Nat)
deriving DecidableEq, Repr

/-- Source tree_to_array_helper (lines 624-637). -/
def treeToArrayHelper : PT → Nat → List (Option (Int × Color)) → List (Option (Int × Color))
  | .nil, _, result => result
  | .node v c l r, idx, result =>
    if idx < result.length then
      treeToArrayHelper r (idx * 2 + 2)
        (treeToArrayHelper l (idx * 2 + 1) (result.set idx (some (v, c))))
    else result

/-- Source tree_to_array (lines 618-622): a 128-slot array, so nodes at
position indices 128 and beyond are not recorded. -/
def treeToArray (t : PT) : List (Option (Int × Color)) :=
  treeToArrayHelper t 0 (List.replicate 128 none)

/-- The while elements.len() <= idx push loop of source render_state
(lines 762-764): pad with empty placeholder elements up to length n. -/
def padElements (elements : List RenderElement) (n : Nat) : List RenderElement :=
  elements ++ List.replicate (n - elements.length) ((RenderElement.new 0).withLabel "")

/-- One pass of the render loop of source render_state (lines 760-788). -/
def renderFoldStep (array : List (Option (Int × Color)))
    (acc : List RenderElement × List (Nat × Nat)) (entry : Nat × Option (Int × Color)) :
    List RenderElement × List (Nat × Nat) :=
  match entry with
  | (_, none) => acc
  | (idx, some (value, color)) =>
    let elements := padElements acc.1 (idx + 1)
    let st := match color with | Color.red => ElementState.comparing | Color.black => ElementState.normal
    let sub := match color with | Color.red => "R" | Color.black => "B"
    let elements := elements.set idx
      ((((RenderElement.new value).withLabel (toString value)).withSublabel sub).withState st)
    let leftIdx := idx * 2 + 1
    let rightIdx := idx * 2 + 2
    let conns := acc.2
    let conns :=
      if leftIdx < array.length && (array.getD leftIdx none).isSome then
        conns ++ [(idx, leftIdx)]
      else conns
    let conns :=
      if rightIdx < array.length && (array.getD rightIdx none).isSome then
        conns ++ [(idx, rightIdx)]
      else conns
    (elements, conns)

/-- Source render_state (lines 754-794). -/
def VisualizableRBTree.renderState (t : VisualizableRBTree) : RenderState :=
  let array := treeToArray t.root
  let res := array.enum.foldl (renderFoldStep array) ([], [])
  { elements := res.1, connections := res.2 }

/-- Source execute_with_steps (lines 647-752).  The Rust method mutates
self and returns a Result of steps; the embedding answers the new tree
paired with the result.  The Delete payload is a usize interpreted as
the value to delete (cast to i32 in the source; the embedding maps it to
the same integer). -/
def executeWithSteps (t : VisualizableRBTree) (op : Operation) :
    VisualizableRBTree × Except DsavError (List Step) :=
  match op with
  | .insert _ value => insertWithSteps t value
  | .search target =>
    let steps : List Step := [{
      description := s!"Searching for {target} in Red-Black Tree",
      highlightIndices := [], activeIndices := [],
      metadata := [("operation", .str "search"), ("target", .num target)] }]
    (t, .ok (searchLoop target t.root 0 steps))
  | .traverse =>
    let steps : List Step := [{
      description := "Starting in-order traversal of Red-Black Tree",
      highlightIndices := [], activeIndices := [],
      metadata := [("operation", .str "traverse")] }]
    (t, .ok (steps ++ inorderTraverseSteps t.root 0 ++ [{
      description := "In-order traversal complete",
      highlightIndices := [], activeIndices := [],
      metadata := [] }]))
  | .delete valueAsIdx => deleteWithSteps t (Int.ofNat valueAsIdx)
  | _ => (t, .error (.visualization "Operation not supported for Red-Black Tree"))

/-- Source test helper verify_rb_recursive (rb_tree.rs lines 1819-1843):
computes the black height (counting vacant subtrees as one black node)
and whether the red-black coloring conditions hold below this node. -/
def verifyRBRecursive : PT → Nat × Bool
  | .nil => (1, true)
  | .node _ c l r =>
    if c = .red && (l.isRed || r.isRed) then (0, false)
    else
      let lres := verifyRBRecursive l
      let rres := verifyRBRecursive r
      if !lres.2 || !rres.2 || lres.1 ≠ rres.1 then (0, false)
      else (lres.1 + (if c = .black then 1 else 0), true)

/-- Source test helper verify_rb_properties (rb_tree.rs lines 1805-1817):
the red-black invariants as the repository itself checks them: the root,
if present, is black; no red node has a red child; and the black count
is uniform across all root-to-vacant paths. -/
def verifyRBProperties (root : PT) : Bool :=
  (match root with
   | .nil => true
   | .node _ c _ _ => c = .black) && (verifyRBRecursive root).2

/-- Fold a list of insertions from the fresh tree; used to exhibit
concrete reachable states. -/
def buildTree (l : List Int) : VisualizableRBTree :=
  l.foldl VisualizableRBTree.insert VisualizableRBTree.new

theorem reachable_buildTree (l : List Int) : Reachable (buildTree l) := by
  suffices h : ∀ t, Reachable t → Reachable (l.foldl VisualizableRBTree.insert t) from
    h _ .empty
  induction l with
  | nil => exact fun t ht => ht
  | cons v l ih => exact fun t ht => ih _ (.insert v ht)

/-- Modelled from the spec (refinement reference for C4): the in-order
enumeration of all nodes with value, color, and complete-binary-tree
position index (root 0, left child 2i+1, right child 2i+2). -/
def specInorderVisits : PT → Nat → List (Int × Color × Nat)
  | .nil, _ => []
  | .node v c l r, idx =>
    specInorderVisits l (idx * 2 + 1) ++ (v, c, idx) :: specInorderVisits r (idx * 2 + 2)

/-- The visit step emitted for one node by the in-order traversal
(source lines 1701-1712), as a function of the visit triple. -/
def mkVisitStep (e : Int × Color × Nat) : Step :=
  let cw := colorWord e.2.1
  { description := s!"Visiting {cw} node with value {e.1}",
    highlightIndices := [e.2.2], activeIndices := [],
    metadata := [("value", .num e.1), ("color", .str (colorJson e.2.1)),
      ("index", .num (e.2.2 : Int))] }

theorem inorderTraverseSteps_eq_spec (t : PT) (idx : Nat) :
    inorderTraverseSteps t idx = (specInorderVisits t idx).map mkVisitStep := by
  induction t generalizing idx with
  | nil => simp [inorderTraverseSteps, specInorderVisits]
  | node v c l r ihl ihr =>
    simp [inorderTraverseSteps, specInorderVisits, ihl, ihr, mkVisitStep]

/-- C10: the index argument of the Insert operation is ignored by the
red-black tree: from equal states, Insert(i, v) and Insert(j, v) produce
identical Step sequences and identical terminal tree states. -/
theorem C10_insert_index_ignored (t : VisualizableRBTree) (i j : Nat) (v : Int) :
    executeWithSteps t (.insert i v) = executeWithSteps t (.insert j v) := rfl

/-- C4 counterexample: the claim asserts that all four traversal orders
succeed, but executing PreOrderTraverse on a concrete reachable tree
returns a Visualization error (the source only implements the in-order
Traverse; pre-, post- and level-order fall into the unsupported arm). -/
theorem C4_counterexample :
    (executeWithSteps (buildTree [50, 25, 75]) .preOrderTraverse).2 =
      .error (.visualization "Operation not supported for Red-Black Tree") := rfl

/-- C4 (amended): the in-order Traverse succeeds without mutating the
tree and emits exactly one visit Step per node, in order, carrying the
node's value, color and complete-binary-tree position index (between an
opening and a closing narration step), while PreOrderTraverse,
PostOrderTraverse and LevelOrderTraverse all fail with a Visualization
error. -/
theorem C4_traversal_amended (t : VisualizableRBTree) :
    executeWithSteps t .traverse =
      (t, .ok ({ description := "Starting in-order traversal of Red-Black Tree",
                 highlightIndices := [], activeIndices := [],
                 metadata := [("operation", .str "traverse")] }
        :: ((specInorderVisits t.root 0).map mkVisitStep
        ++ [{ description := "In-order traversal complete",
              highlightIndices := [], activeIndices := [],
              metadata := [] }])))
    ∧ executeWithSteps t .preOrderTraverse =
        (t, .error (.visualization "Operation not supported for Red-Black Tree"))
    ∧ executeWithSteps t .postOrderTraverse =
        (t, .error (.visualization "Operation not supported for Red-Black Tree"))
    ∧ executeWithSteps t .levelOrderTraverse =
        (t, .error (.visualization "Operation not supported for Red-Black Tree")) := by
  refine ⟨?_, rfl, rfl, rfl⟩
  simp [executeWithSteps, inorderTraverseSteps_eq_spec]

/-- Values to the left of the hole of a context, in the in-order
sequence of the plugged tree. -/
def ctxLeftVals : Ctx → List Int
  | [] => []
  | f :: rest =>
    match f.dir with
    | .left => ctxLeftVals rest
    | .right => ctxLeftVals rest ++ inorderCollect f.sibling ++ [f.value]

/-- Values to the right of the hole of a context, in the in-order
sequence of the plugged tree. -/
def ctxRightVals : Ctx → List Int
  | [] => []
  | f :: rest =>
    match f.dir with
    | .left => f.value :: (inorderCollect f.sibling ++ ctxRightVals rest)
    | .right => ctxRightVals rest

theorem inorder_plug (ctx : Ctx) (t : PT) :
    inorderCollect (plug ctx t) =
      ctxLeftVals ctx ++ inorderCollect t ++ ctxRightVals ctx := by
  induction ctx generalizing t with
  | nil => simp [plug, ctxLeftVals, ctxRightVals]
  | cons f rest ih =>
    cases f with
    | mk v c d s =>
      cases d <;>
        simp [plug, ih, Frame.fill, inorderCollect, ctxLeftVals, ctxRightVals]

theorem inorder_fill (f : Frame) (t : PT) :
    inorderCollect (f.fill t) =
      ctxLeftVals [f] ++ inorderCollect t ++ ctxRightVals [f] := by
  have h := inorder_plug [f] t
  simpa [plug] using h

theorem inorder_rotateLeftSub (t : PT) :
    inorderCollect (rotateLeftSub t) = inorderCollect t := by
  match t with
  | .nil => rfl
  | .node v c l .nil => rfl
  | .node v c l (.node yv yc yl yr) => simp [rotateLeftSub, inorderCollect]

theorem inorder_rotateRightSub (t : PT) :
    inorderCollect (rotateRightSub t) = inorderCollect t := by
  match t with
  | .nil => rfl
  | .node v c .nil r => rfl
  | .node v c (.node yv yc yl yr) r => simp [rotateRightSub, inorderCollect]

theorem inorder_setRootColor (t : PT) (c : Color) :
    inorderCollect (t.setRootColor c) = inorderCollect t := by
  cases t <;> rfl

theorem inorder_insertFixupLoop (ctx : Ctx) (z : PT) :
    inorderCollect (insertFixupLoop ctx z) =
      ctxLeftVals ctx ++ inorderCollect z ++ ctxRightVals ctx := by
  induction ctx, z using insertFixupLoop.induct <;>
    simp only [insertFixupLoop] <;>
    (repeat' split) <;>
    simp_all [inorder_plug, inorder_fill, inorder_rotateLeftSub,
      inorder_rotateRightSub, inorder_setRootColor, Frame.fill, inorderCollect,
      ctxLeftVals, ctxRightVals] <;>
    (repeat' split) <;>
    simp_all [inorderCollect, List.append_assoc]

theorem rotateLeftSub_eq_nil (t : PT) : rotateLeftSub t = .nil ↔ t = .nil := by
  cases t with
  | nil => simp [rotateLeftSub]
  | node v c l r => cases r <;> simp [rotateLeftSub]

theorem rotateRightSub_eq_nil (t : PT) : rotateRightSub t = .nil ↔ t = .nil := by
  cases t with
  | nil => simp [rotateRightSub]
  | node v c l r => cases l <;> simp [rotateRightSub]

set_option maxHeartbeats 1600000 in
theorem inorder_deleteFixupStep_inl (f : Frame) (rest : Ctx) (x : PT) (ctx2 : Ctx) (x2 : PT)
    (hx : x.isRed = false) (h : deleteFixupStep f rest x = .inl (ctx2, x2)) :
    ctxLeftVals ctx2 ++ inorderCollect x2 ++ ctxRightVals ctx2 =
      ctxLeftVals (f :: rest) ++ inorderCollect x ++ ctxRightVals (f :: rest) := by
  obtain ⟨fv, fc, fd, fs⟩ := f
  cases fd <;>
    simp only [deleteFixupStep, xIsLeftOf] at h <;>
    (repeat' split at h) <;> (try cases h) <;>
    (try split_ifs at *) <;>
    simp_all [ctxLeftVals, ctxRightVals, inorderCollect, inorder_plug, inorder_setRootColor,
      inorder_rotateLeftSub, inorder_rotateRightSub,
      rotateLeftSub_eq_nil, rotateRightSub_eq_nil,
      PT.isRed, List.append_assoc] <;>
    (try (rename_i heq
          have h2 := congrArg inorderCollect heq
          simp only [inorder_rotateLeftSub, inorder_rotateRightSub, inorder_setRootColor,
            inorderCollect] at h2
          simp only [← List.append_assoc, ← List.cons_append] at h2 ⊢
          simp [h2]))

set_option maxHeartbeats 1600000 in
theorem inorder_deleteFixupStep_inr (f : Frame) (rest : Ctx) (x : PT) (t : PT)
    (hx : x.isRed = false) (h : deleteFixupStep f rest x = .inr t) :
    inorderCollect t =
      ctxLeftVals (f :: rest) ++ inorderCollect x ++ ctxRightVals (f :: rest) := by
  obtain ⟨fv, fc, fd, fs⟩ := f
  cases fd <;>
    simp only [deleteFixupStep, xIsLeftOf] at h <;>
    (repeat' split at h) <;> (try cases h) <;>
    (try split_ifs at *) <;>
    simp_all [ctxLeftVals, ctxRightVals, inorderCollect, inorder_plug, inorder_setRootColor,
      inorder_rotateLeftSub, inorder_rotateRightSub,
      rotateLeftSub_eq_nil, rotateRightSub_eq_nil,
      PT.isRed, List.append_assoc] <;>
    (try (rename_i heq
          have h2 := congrArg inorderCollect heq
          simp only [inorder_rotateLeftSub, inorder_rotateRightSub, inorder_setRootColor,
            inorderCollect] at h2
          simp only [← List.append_assoc, ← List.cons_append] at h2 ⊢
          simp [h2]))

theorem inorder_deleteFixupLoop (ctx : Ctx) (x : PT) :
    inorderCollect (deleteFixupLoop ctx x) =
      ctxLeftVals ctx ++ inorderCollect x ++ ctxRightVals ctx := by
  induction ctx, x using deleteFixupLoop.induct with
  | case1 ctx xv xl xr => simp [deleteFixupLoop, inorder_plug, inorderCollect]
  | case2 x hx =>
    cases x with
    | nil => simp [deleteFixupLoop, ctxLeftVals, ctxRightVals, inorderCollect, PT.setRootColor]
    | node v c l r =>
      cases c with
      | red => exact absurd rfl (hx v l r)
      | black =>
        simp [deleteFixupLoop, ctxLeftVals, ctxRightVals, inorderCollect, PT.setRootColor]
  | case3 f rest ctx2 x2 heq ih =>
    simp only [deleteFixupLoop]
    split
    next ctx3 x3 heq2 =>
      rw [heq] at heq2
      obtain ⟨rfl, rfl⟩ : ctx2 = ctx3 ∧ x2 = x3 := by simpa using heq2
      exact ih.trans (inorder_deleteFixupStep_inl f rest .nil ctx2 x2 rfl heq)
    next t2 heq2 =>
      rw [heq] at heq2
      cases heq2
  | case4 f rest t heq =>
    simp only [deleteFixupLoop]
    split
    next ctx3 x3 heq2 =>
      rw [heq] at heq2
      cases heq2
    next t2 heq2 =>
      rw [heq] at heq2
      obtain rfl : t = t2 := by simpa using heq2
      exact inorder_deleteFixupStep_inr f rest .nil t rfl heq
  | case5 f rest xv xl xr ctx2 x2 heq ih =>
    simp only [deleteFixupLoop]
    split
    next ctx3 x3 heq2 =>
      rw [heq] at heq2
      obtain ⟨rfl, rfl⟩ : ctx2 = ctx3 ∧ x2 = x3 := by simpa using heq2
      exact ih.trans
        (inorder_deleteFixupStep_inl f rest (.node xv .black xl xr) ctx2 x2 rfl heq)
    next t2 heq2 =>
      rw [heq] at heq2
      cases heq2
  | case6 f rest xv xl xr t heq =>
    simp only [deleteFixupLoop]
    split
    next ctx3 x3 heq2 =>
      rw [heq] at heq2
      cases heq2
    next t2 heq2 =>
      rw [heq] at heq2
      obtain rfl : t = t2 := by simpa using heq2
      exact inorder_deleteFixupStep_inr f rest (.node xv .black xl xr) t rfl heq
theorem ctxLeftVals_append (a b : Ctx) :
    ctxLeftVals (a ++ b) = ctxLeftVals b ++ ctxLeftVals a := by
  induction a with
  | nil => simp [ctxLeftVals]
  | cons f rest ih =>
    cases f with
    | mk v c d s => cases d <;> simp [ctxLeftVals, ih, List.append_assoc]

theorem ctxRightVals_append (a b : Ctx) :
    ctxRightVals (a ++ b) = ctxRightVals a ++ ctxRightVals b := by
  induction a with
  | nil => simp [ctxRightVals]
  | cons f rest ih =>
    cases f with
    | mk v c d s => cases d <;> simp [ctxRightVals, ih, List.append_assoc]

theorem findNodeGo_none (t : PT) (v : Int) (ctx0 : Ctx)
    (h : v ∉ inorderCollect t) : findNodeGo t v ctx0 = none := by
  induction t generalizing ctx0 with
  | nil => rfl
  | node v0 c0 l r ihl ihr =>
    simp only [inorderCollect, List.mem_append, List.mem_cons] at h
    push_neg at h
    obtain ⟨h1, h2, h3⟩ := h
    simp only [findNodeGo]
    rw [if_neg h2]
    split
    · exact ihl _ h1
    · exact ihr _ h3

theorem findNodeGo_some (t : PT) (v : Int) (ctx0 : Ctx) (ctx : Ctx) (z : PT)
    (h : findNodeGo t v ctx0 = some (ctx, z)) :
    plug ctx z = plug ctx0 t ∧ ∃ c l r, z = .node v c l r := by
  induction t generalizing ctx0 with
  | nil => simp [findNodeGo] at h
  | node v0 c0 l r ihl ihr =>
    simp only [findNodeGo] at h
    split_ifs at h with h1 h2
    · obtain ⟨rfl, rfl⟩ : ctx0 = ctx ∧ PT.node v0 c0 l r = z := by simpa using h
      exact ⟨rfl, c0, l, r, by rw [h1]⟩
    · exact ihl _ h
    · exact ihr _ h

theorem treeMinimumZ_plug (t : PT) (ctx0 : Ctx) :
    plug (treeMinimumZ t ctx0).1 (treeMinimumZ t ctx0).2 = plug ctx0 t := by
  induction t generalizing ctx0 with
  | nil => rfl
  | node v c l r ihl ihr =>
    cases l with
    | nil => rfl
    | node lv lc ll lr => exact ihl _

theorem treeMinimumZ_leftVals (t : PT) (ctx0 : Ctx) :
    ctxLeftVals (treeMinimumZ t ctx0).1 = ctxLeftVals ctx0 := by
  induction t generalizing ctx0 with
  | nil => rfl
  | node v c l r ihl ihr =>
    cases l with
    | nil => rfl
    | node lv lc ll lr =>
      rw [show treeMinimumZ (PT.node v c (PT.node lv lc ll lr) r) ctx0 =
        treeMinimumZ (PT.node lv lc ll lr) (⟨v, c, .left, r⟩ :: ctx0) from rfl]
      rw [ihl]
      simp [ctxLeftVals]

theorem treeMinimumZ_shape (v : Int) (c : Color) (l r : PT) (ctx0 : Ctx) :
    ∃ yv yc yr, (treeMinimumZ (.node v c l r) ctx0).2 = .node yv yc .nil yr := by
  induction l generalizing v c r ctx0 with
  | nil => exact ⟨v, c, r, rfl⟩
  | node lv lc ll lr ihl ihr => exact ihl lv lc lr _

theorem sorted_node_parts (l r : List Int) (v0 : Int)
    (hs : (l ++ v0 :: r).Sorted (· < ·)) :
    l.Sorted (· < ·) ∧ r.Sorted (· < ·) ∧ (∀ u ∈ l, u < v0) ∧ (∀ u ∈ r, v0 < u) ∧
      (∀ a ∈ l, ∀ b ∈ r, a < b) := by
  simp only [List.Sorted, List.pairwise_append, List.pairwise_cons] at hs
  obtain ⟨h1, ⟨h2, h3⟩, h4⟩ := hs
  exact ⟨h1, h3, fun u hu => h4 u hu v0 (by simp), h2,
    fun a ha b hb => h4 a ha b (by simp [hb])⟩

theorem insertBstGo_none (t : PT) (v : Int) (ctx0 : Ctx)
    (h : insertBstGo t v ctx0 = none) : v ∈ inorderCollect t := by
  induction t generalizing ctx0 with
  | nil => simp [insertBstGo] at h
  | node v0 c0 l r ihl ihr =>
    simp only [insertBstGo] at h
    split_ifs at h with h1 h2
    · exact List.mem_append.2 (.inl (ihl _ h))
    · exact List.mem_append.2 (.inr (List.mem_cons.2 (.inr (ihr _ h))))
    · have hv : v = v0 := le_antisymm (not_lt.1 h2) (not_lt.1 h1)
      simp [inorderCollect, hv]

theorem insertBstGo_some (t : PT) (v : Int) (ctx0 ctx : Ctx)
    (hs : (inorderCollect t).Sorted (· < ·))
    (h : insertBstGo t v ctx0 = some ctx) :
    ∃ add, ctx = add ++ ctx0 ∧
      ctxLeftVals add ++ ctxRightVals add = inorderCollect t ∧
      (∀ u ∈ ctxLeftVals add, u < v) ∧ (∀ u ∈ ctxRightVals add, v < u) := by
  induction t generalizing ctx0 with
  | nil =>
    have hctx : ctx = ctx0 := by simpa [insertBstGo] using h.symm
    exact ⟨[], by simp [hctx], by simp [ctxLeftVals, ctxRightVals, inorderCollect],
      by simp [ctxLeftVals], by simp [ctxRightVals]⟩
  | node v0 c0 l r ihl ihr =>
    rw [inorderCollect] at hs
    obtain ⟨hsl, hsr, hlv0, hv0r, hcross⟩ := sorted_node_parts _ _ _ hs
    simp only [insertBstGo] at h
    split_ifs at h with h1 h2
    · obtain ⟨add, rfl, hdecomp, hL, hR⟩ := ihl _ hsl h
      refine ⟨add ++ [⟨v0, c0, .left, r⟩], by simp, ?_, ?_, ?_⟩
      · rw [ctxLeftVals_append, ctxRightVals_append]
        simp only [ctxLeftVals, ctxRightVals, inorderCollect]
        simp only [List.append_nil, List.nil_append]
        rw [← List.append_assoc, hdecomp]
      · intro u hu
        rw [ctxLeftVals_append] at hu
        simp only [ctxLeftVals, List.nil_append] at hu
        exact hL u hu
      · intro u hu
        rw [ctxRightVals_append] at hu
        simp only [ctxRightVals, List.append_nil] at hu
        rcases List.mem_append.1 hu with hu1 | hu2
        · exact hR u hu1
        · rcases List.mem_cons.1 hu2 with rfl | hu3
          · exact h1
          · exact h1.trans (hv0r u hu3)
    · obtain ⟨add, rfl, hdecomp, hL, hR⟩ := ihr _ hsr h
      refine ⟨add ++ [⟨v0, c0, .right, l⟩], by simp, ?_, ?_, ?_⟩
      · rw [ctxLeftVals_append, ctxRightVals_append]
        simp only [ctxLeftVals, ctxRightVals, inorderCollect]
        simp only [List.append_nil, List.nil_append]
        rw [List.append_assoc, List.append_assoc, hdecomp]
        simp [inorderCollect]
      · intro u hu
        rw [ctxLeftVals_append] at hu
        simp only [ctxLeftVals, List.nil_append] at hu
        rcases List.mem_append.1 hu with hu1 | hu2
        · rcases List.mem_append.1 hu1 with hu3 | hu4
          · exact (hlv0 u hu3).trans h2
          · simp at hu4
            rw [hu4]
            exact h2
        · exact hL u hu2
      · intro u hu
        rw [ctxRightVals_append] at hu
        simp only [ctxRightVals, List.append_nil] at hu
        exact hR u hu

theorem sorted_insert_mid (L R : List Int) (v : Int)
    (hs : (L ++ R).Sorted (· < ·)) (hL : ∀ u ∈ L, u < v) (hR : ∀ u ∈ R, v < u) :
    (L ++ v :: R).Sorted (· < ·) := by
  simp only [List.Sorted, List.pairwise_append, List.pairwise_cons] at hs ⊢
  obtain ⟨h1, h2, h3⟩ := hs
  refine ⟨h1, ⟨hR, h2⟩, fun a ha b hb => ?_⟩
  rcases List.mem_cons.1 hb with rfl | hb2
  · exact hL a ha
  · exact h3 a ha b hb2

theorem sorted_remove_mid (L R : List Int) (v : Int)
    (hs : (L ++ v :: R).Sorted (· < ·)) : (L ++ R).Sorted (· < ·) := by
  simp only [List.Sorted, List.pairwise_append, List.pairwise_cons] at hs ⊢
  obtain ⟨h1, ⟨h2, h3⟩, h4⟩ := hs
  exact ⟨h1, h3, fun a ha b hb => h4 a ha b (by simp [hb])⟩

theorem sorted_split_unique (L1 R1 L2 R2 : List Int) (v : Int)
    (hL1 : ∀ u ∈ L1, u < v) (hL2 : ∀ u ∈ L2, u < v)
    (h : L1 ++ v :: R1 = L2 ++ v :: R2) : L1 = L2 ∧ R1 = R2 := by
  induction L1 generalizing L2 with
  | nil =>
    cases L2 with
    | nil => simpa using h
    | cons b L2t =>
      simp only [List.nil_append, List.cons_append, List.cons.injEq] at h
      have hb := hL2 b (List.mem_cons_self b L2t)
      omega
  | cons a L1t ih =>
    cases L2 with
    | nil =>
      simp only [List.nil_append, List.cons_append, List.cons.injEq] at h
      have ha := hL1 a (List.mem_cons_self a L1t)
      omega
    | cons b L2t =>
      simp only [List.cons_append, List.cons.injEq] at h
      obtain ⟨rfl, h2⟩ := h
      obtain ⟨hl, hr⟩ := ih L2t (fun u hu => hL1 u (List.mem_cons_of_mem a hu))
        (fun u hu => hL2 u (List.mem_cons_of_mem a hu)) h2
      exact ⟨by rw [hl], hr⟩

theorem findNodeGo_mem (t : PT) (v : Int) (ctx0 : Ctx)
    (hs : (inorderCollect t).Sorted (· < ·)) (hv : v ∈ inorderCollect t) :
    ∃ ctx z, findNodeGo t v ctx0 = some (ctx, z) := by
  induction t generalizing ctx0 with
  | nil => simp [inorderCollect] at hv
  | node v0 c0 l r ihl ihr =>
    rw [inorderCollect] at hs hv
    obtain ⟨hsl, hsr, hlv0, hv0r, -⟩ := sorted_node_parts _ _ _ hs
    simp only [findNodeGo]
    split_ifs with h1 h2
    · exact ⟨_, _, rfl⟩
    · have hvl : v ∈ inorderCollect l := by
        rcases List.mem_append.1 hv with h3 | h3
        · exact h3
        · rcases List.mem_cons.1 h3 with rfl | h4
          · exact absurd rfl h1
          · exact absurd (hv0r v h4) (lt_asymm h2)
      exact ihl _ hsl hvl
    · have hvr : v ∈ inorderCollect r := by
        rcases List.mem_append.1 hv with h3 | h3
        · exact absurd (hlv0 v h3) h2
        · rcases List.mem_cons.1 h3 with rfl | h4
          · exact absurd rfl h1
          · exact h4
      exact ihr _ hsr hvr

theorem inorder_insert (t : VisualizableRBTree) (v : Int)
    (hs : (inorderCollect t.root).Sorted (· < ·)) :
    (v ∈ inorderCollect t.root ∧ t.insert v = t) ∨
    (∃ L R, inorderCollect t.root = L ++ R ∧
      inorderCollect (t.insert v).root = L ++ v :: R ∧
      (∀ u ∈ L, u < v) ∧ (∀ u ∈ R, v < u)) := by
  obtain ⟨root, size⟩ := t
  cases root with
  | nil =>
    right
    exact ⟨[], [], by simp [inorderCollect],
      by simp [VisualizableRBTree.insert, inorderCollect], by simp, by simp⟩
  | node rv rc rl rr =>
    cases hfind : insertBstGo (PT.node rv rc rl rr) v [] with
    | none =>
      left
      refine ⟨insertBstGo_none _ v [] hfind, ?_⟩
      simp [VisualizableRBTree.insert, hfind]
    | some ctx =>
      right
      obtain ⟨add, hadd, hdecomp, hL, hR⟩ := insertBstGo_some _ v [] ctx hs hfind
      rw [List.append_nil] at hadd
      subst hadd
      refine ⟨ctxLeftVals ctx, ctxRightVals ctx, hdecomp.symm, ?_, hL, hR⟩
      simp [VisualizableRBTree.insert, hfind, insertFixup, inorder_setRootColor,
        inorder_insertFixupLoop, inorderCollect]

theorem inorder_deleteNode (zctx : Ctx) (zv : Int) (zc : Color) (zl zr : PT) :
    inorderCollect (deleteNode zctx (.node zv zc zl zr)) =
      ctxLeftVals zctx ++ inorderCollect zl ++ inorderCollect zr ++ ctxRightVals zctx := by
  cases zl with
  | nil =>
    cases zc <;>
      simp [deleteNode, deleteNodeParts, inorder_deleteFixupLoop, inorder_plug,
        inorderCollect, List.append_assoc]
  | node lv lc ll lr =>
    cases zr with
    | nil =>
      cases zc <;>
        simp [deleteNode, deleteNodeParts, inorder_deleteFixupLoop, inorder_plug,
          inorderCollect, List.append_assoc]
    | node rv rc rl rr =>
      rcases hmin : treeMinimumZ (.node rv rc rl rr) [] with ⟨sctx, y⟩
      obtain ⟨yv, yc, yr, hy⟩ := treeMinimumZ_shape rv rc rl rr []
      rw [hmin] at hy
      simp only [] at hy
      subst hy
      have hplug2 : plug sctx (PT.node yv yc PT.nil yr) = PT.node rv rc rl rr := by
        have h0 := treeMinimumZ_plug (.node rv rc rl rr) []
        rw [hmin] at h0
        simpa [plug] using h0
      have hleft2 : ctxLeftVals sctx = [] := by
        have h0 := treeMinimumZ_leftVals (.node rv rc rl rr) []
        rw [hmin] at h0
        simpa [ctxLeftVals] using h0
      have hzr : inorderCollect (PT.node rv rc rl rr) =
          yv :: (inorderCollect yr ++ ctxRightVals sctx) := by
        have h2 := congrArg inorderCollect hplug2
        rw [inorder_plug, hleft2] at h2
        simpa [inorderCollect, List.append_assoc] using h2.symm
      cases yc <;>
        (simp only [deleteNode, deleteNodeParts, hmin]
         rw [hzr]
         simp [inorder_deleteFixupLoop, inorder_plug, ctxLeftVals_append, ctxRightVals_append,
           ctxLeftVals, ctxRightVals, inorderCollect, hleft2, List.append_assoc])

theorem inorder_delete_found (t : VisualizableRBTree) (v : Int) (ctx : Ctx) (z : PT)
    (h : findNodeGo t.root v [] = some (ctx, z)) :
    ∃ L R, inorderCollect t.root = L ++ v :: R ∧
      inorderCollect (t.delete v).1.root = L ++ R := by
  obtain ⟨hplug, c, l, r, rfl⟩ := findNodeGo_some t.root v [] ctx z h
  simp only [plug] at hplug
  refine ⟨ctxLeftVals ctx ++ inorderCollect l, inorderCollect r ++ ctxRightVals ctx, ?_, ?_⟩
  · rw [← hplug, inorder_plug]
    simp [inorderCollect, List.append_assoc]
  · simp [VisualizableRBTree.delete, h, inorder_deleteNode, List.append_assoc]

theorem reachable_sorted (t : VisualizableRBTree) (h : Reachable t) :
    (inorderCollect t.root).Sorted (· < ·) := by
  induction h with
  | empty => simp [VisualizableRBTree.new, inorderCollect, List.Sorted]
  | insert v h ih =>
    rcases inorder_insert _ v ih with ⟨hmem, heq⟩ | ⟨L, R, hold, hnew, hL, hR⟩
    · rw [heq]
      exact ih
    · rw [hnew]
      rw [hold] at ih
      exact sorted_insert_mid L R v ih hL hR
  | delete v h ih =>
    rename_i t0
    cases hfind : findNodeGo t0.root v [] with
    | none =>
      simp only [VisualizableRBTree.delete, hfind]
      exact ih
    | some p =>
      obtain ⟨ctx, z⟩ := p
      obtain ⟨L, R, hold, hnew⟩ := inorder_delete_found t0 v ctx z hfind
      rw [hnew]
      rw [hold] at ih
      exact sorted_remove_mid L R v ih

/-- C2: for every reachable VisualizableRBTree state, the in-order
traversal of the tree yields its values in non-decreasing order. -/
theorem C2_inorder_sorted (t : VisualizableRBTree) (h : Reachable t) :
    (inorderCollect t.root).Sorted (· ≤ ·) :=
  (reachable_sorted t h).le_of_lt

/-- C2 witness: the sortedness theorem applied at a concrete reachable
state. -/
theorem C2_inorder_sorted_witness :
    (inorderCollect (buildTree [50, 25, 75, 10, 30]).root).Sorted (· ≤ ·) :=
  C2_inorder_sorted (buildTree [50, 25, 75, 10, 30])
    (reachable_buildTree [50, 25, 75, 10, 30])

/-- C3: for every reachable tree state and value v not present in it,
inserting v and then deleting v returns the tree to its prior state as
observed by its in-order traversal sequence and hence by its value
set. -/
theorem C3_insert_delete_round_trip (t : VisualizableRBTree) (v : Int)
    (hreach : Reachable t) (hv : v ∉ inorderCollect t.root) :
    inorderCollect ((t.insert v).delete v).1.root = inorderCollect t.root ∧
    (∀ u, u ∈ inorderCollect ((t.insert v).delete v).1.root ↔
      u ∈ inorderCollect t.root) := by
  have hs := reachable_sorted t hreach
  rcases inorder_insert t v hs with ⟨hmem, -⟩ | ⟨L, R, hold, hnew, hL, hR⟩
  · exact absurd hmem hv
  · have hs3 : (L ++ v :: R).Sorted (· < ·) := by
      rw [hold] at hs
      exact sorted_insert_mid L R v hs hL hR
    have hs2 : (inorderCollect (t.insert v).root).Sorted (· < ·) := by
      rw [hnew]
      exact hs3
    have hv2 : v ∈ inorderCollect (t.insert v).root := by
      rw [hnew]
      simp
    obtain ⟨ctx, z, hfind⟩ := findNodeGo_mem _ v [] hs2 hv2
    obtain ⟨L2, R2, hold2, hnew2⟩ := inorder_delete_found (t.insert v) v ctx z hfind
    rw [hnew] at hold2
    have hs4 : (L2 ++ v :: R2).Sorted (· < ·) := hold2 ▸ hs3
    obtain ⟨-, -, hL2, -, -⟩ := sorted_node_parts L2 R2 v hs4
    obtain ⟨hLL, hRR⟩ := sorted_split_unique L R L2 R2 v hL hL2 hold2
    have hfin : inorderCollect ((t.insert v).delete v).1.root = inorderCollect t.root := by
      rw [hnew2, ← hLL, ← hRR, hold]
    exact ⟨hfin, fun u => by rw [hfin]⟩

/-- C3 witness: the round trip applied at a concrete reachable state and
absent value. -/
theorem C3_insert_delete_round_trip_witness :
    inorderCollect (((buildTree [50, 25]).insert 75).delete 75).1.root =
      inorderCollect (buildTree [50, 25]).root ∧
    (∀ u, u ∈ inorderCollect (((buildTree [50, 25]).insert 75).delete 75).1.root ↔
      u ∈ inorderCollect (buildTree [50, 25]).root) :=
  C3_insert_delete_round_trip (buildTree [50, 25]) 75
    (reachable_buildTree [50, 25]) (by decide)

/-- C6: executing Delete with steps for a value not present succeeds:
the tree (hence its size) is unchanged and the returned step sequence
carries a not-found marker. -/
theorem C6_delete_absent (t : VisualizableRBTree) (v : Int)
    (hv : v ∉ inorderCollect t.root) :
    (deleteWithSteps t v).1 = t ∧
    ∃ steps, (deleteWithSteps t v).2 = .ok steps ∧
      ∃ s ∈ steps, ("found", JVal.bool false) ∈ s.metadata := by
  have hfind := findNodeGo_none t.root v [] hv
  unfold deleteWithSteps
  rw [hfind]
  refine ⟨rfl, _, rfl, ?_⟩
  refine ⟨{ description := s!"Value {v} not found in tree",
            highlightIndices := [], activeIndices := [],
            metadata := [("found", .bool false)] }, by simp, by simp⟩

/-- C6 witness: deleting an absent value from a concrete reachable
state. -/
theorem C6_delete_absent_witness :
    (deleteWithSteps (buildTree [50, 25, 75]) 99).1 = buildTree [50, 25, 75] ∧
    ∃ steps, (deleteWithSteps (buildTree [50, 25, 75]) 99).2 = .ok steps ∧
      ∃ s ∈ steps, ("found", JVal.bool false) ∈ s.metadata :=
  C6_delete_absent (buildTree [50, 25, 75]) 99 (by decide)

theorem insertDescend_dup (v : Int) (t : PT)
    (hs : (inorderCollect t).Sorted (· < ·)) (hv : v ∈ inorderCollect t) :
    ∀ (ctx : Ctx) (path : List Nat) (idx : Nat) (steps : List Step),
    ∃ tail, insertDescend v t ctx path idx steps = (steps ++ tail, none) ∧
      ∃ s ∈ tail, ("duplicate", JVal.bool true) ∈ s.metadata := by
  induction t with
  | nil => simp [inorderCollect] at hv
  | node v0 c0 l r ihl ihr =>
    intro ctx path idx steps
    rw [inorderCollect] at hs hv
    obtain ⟨hsl, hsr, hlv0, hv0r, -⟩ := sorted_node_parts _ _ _ hs
    simp only [insertDescend]
    split_ifs with h1 h2
    · have hvl : v ∈ inorderCollect l := by
        rcases List.mem_append.1 hv with h3 | h3
        · exact h3
        · rcases List.mem_cons.1 h3 with rfl | h4
          · exact absurd h1 (lt_irrefl v)
          · exact absurd (hv0r v h4) (lt_asymm h1)
      obtain ⟨tail, heq, hmark⟩ := ihl hsl hvl _ _ _ _
      refine ⟨{ description := s!"Comparing {v} with {v0} ({colorWord c0} node)",
                highlightIndices := path ++ [idx], activeIndices := [],
                metadata := [("comparing", .arrNum [v, v0]),
                             ("node_color", .str (colorJson c0))] } :: tail, ?_, ?_⟩
      · rw [heq]
        simp
      · obtain ⟨s2, hs2, hm2⟩ := hmark
        exact ⟨s2, List.mem_cons_of_mem _ hs2, hm2⟩
    · have hvr : v ∈ inorderCollect r := by
        rcases List.mem_append.1 hv with h3 | h3
        · exact absurd (hlv0 v h3) (lt_asymm h2)
        · rcases List.mem_cons.1 h3 with rfl | h4
          · exact absurd h2 (lt_irrefl v)
          · exact h4
      obtain ⟨tail, heq, hmark⟩ := ihr hsr hvr _ _ _ _
      refine ⟨{ description := s!"Comparing {v} with {v0} ({colorWord c0} node)",
                highlightIndices := path ++ [idx], activeIndices := [],
                metadata := [("comparing", .arrNum [v, v0]),
                             ("node_color", .str (colorJson c0))] } :: tail, ?_, ?_⟩
      · rw [heq]
        simp
      · obtain ⟨s2, hs2, hm2⟩ := hmark
        exact ⟨s2, List.mem_cons_of_mem _ hs2, hm2⟩
    · refine ⟨[{ description := s!"Comparing {v} with {v0} ({colorWord c0} node)",
                 highlightIndices := path ++ [idx], activeIndices := [],
                 metadata := [("comparing", .arrNum [v, v0]),
                              ("node_color", .str (colorJson c0))] },
               { description := s!"{v} already exists in tree (no duplicates allowed)",
                 highlightIndices := path ++ [idx], activeIndices := [],
                 metadata := [("duplicate", .bool true)] }], by simp, ?_⟩
      refine ⟨{ description := s!"{v} already exists in tree (no duplicates allowed)",
                highlightIndices := path ++ [idx], activeIndices := [],
                metadata := [("duplicate", .bool true)] }, by simp, by simp⟩

/-- C7: inserting a value already present is a no-op on the structure
(the tree and its size are unchanged) while still producing a non-empty
step sequence carrying a duplicate marker. -/
theorem C7_insert_duplicate (t : VisualizableRBTree) (v : Int)
    (hreach : Reachable t) (hv : v ∈ inorderCollect t.root) :
    (insertWithSteps t v).1 = t ∧
    ∃ steps, (insertWithSteps t v).2 = .ok steps ∧ steps ≠ [] ∧
      ∃ s ∈ steps, ("duplicate", JVal.bool true) ∈ s.metadata := by
  have hs := reachable_sorted t hreach
  obtain ⟨root, size⟩ := t
  cases hroot : root with
  | nil =>
    rw [hroot] at hv
    simp [inorderCollect] at hv
  | node rv rc rl rr =>
    subst hroot
    obtain ⟨tail, heq, s2, hs2, hm2⟩ :=
      insertDescend_dup v (PT.node rv rc rl rr) hs hv [] [] 0
        [{ description := s!"Inserting {v} into Red-Black Tree",
           highlightIndices := [], activeIndices := [],
           metadata := [("operation", .str "insert"), ("value", .num v)] }]
    simp only [insertWithSteps, heq]
    exact ⟨trivial, _, rfl, by simp, s2, List.mem_append_right _ hs2, hm2⟩

/-- C7 witness: the duplicate-insert theorem at a concrete reachable
state. -/
theorem C7_insert_duplicate_witness :
    (insertWithSteps (buildTree [50, 25, 75]) 25).1 = buildTree [50, 25, 75] ∧
    ∃ steps, (insertWithSteps (buildTree [50, 25, 75]) 25).2 = .ok steps ∧ steps ≠ [] ∧
      ∃ s ∈ steps, ("duplicate", JVal.bool true) ∈ s.metadata :=
  C7_insert_duplicate (buildTree [50, 25, 75]) 25
    (reachable_buildTree [50, 25, 75]) (by decide)

/-- The (position index, value, color) triples of the nodes of a tree
whose root sits at complete-binary-tree index idx (root index 0, left
child 2i+1, right child 2i+2), in pre-order. -/
def nodesIdx : PT → Nat → List (Nat × Int × Color)
  | .nil, _ => []
  | .node v c l r, idx =>
    (idx, v, c) :: (nodesIdx l (idx * 2 + 1) ++ nodesIdx r (idx * 2 + 2))

/-- The (parent index, child index) pairs of the parent-child links of a
tree whose root sits at index idx. -/
def linksIdx : PT → Nat → List (Nat × Nat)
  | .nil, _ => []
  | .node _ _ l r, idx =>
    (match l with | .nil => [] | .node _ _ _ _ => [(idx, idx * 2 + 1)]) ++
    linksIdx l (idx * 2 + 1) ++
    (match r with | .nil => [] | .node _ _ _ _ => [(idx, idx * 2 + 2)]) ++
    linksIdx r (idx * 2 + 2)

/-- i lies on the ancestor chain of j in the complete-binary-tree index
scheme (the parent of j being (j-1)/2), inclusively. -/
def inChain (j i : Nat) : Bool :=
  if i = j then true
  else if j = 0 then false
  else inChain ((j - 1) / 2) i
termination_by j
decreasing_by omega

theorem inChain_iff (j i : Nat) :
    inChain j i = true ↔ i = j ∨ (j ≠ 0 ∧ inChain ((j - 1) / 2) i = true) := by
  rw [inChain]
  split_ifs with h1 h2 <;> simp_all

theorem inChain_le {j i : Nat} (h : inChain j i = true) : i ≤ j := by
  induction j using Nat.strong_induction_on with
  | _ j ih =>
    rcases (inChain_iff j i).1 h with rfl | ⟨hj, h2⟩
    · exact le_refl i
    · have := ih ((j - 1) / 2) (by omega) h2
      omega

theorem inChain_refl (j : Nat) : inChain j j = true :=
  (inChain_iff j j).2 (Or.inl rfl)

theorem inChain_left (i : Nat) : inChain (2 * i + 1) i = true := by
  refine (inChain_iff _ _).2 (Or.inr ⟨by omega, ?_⟩)
  have h2 : (2 * i + 1 - 1) / 2 = i := by omega
  rw [h2]
  exact inChain_refl i

theorem inChain_right (i : Nat) : inChain (2 * i + 2) i = true := by
  refine (inChain_iff _ _).2 (Or.inr ⟨by omega, ?_⟩)
  have h2 : (2 * i + 2 - 1) / 2 = i := by omega
  rw [h2]
  exact inChain_refl i

theorem inChain_trans {j k i : Nat} (h1 : inChain j k = true)
    (h2 : inChain k i = true) : inChain j i = true := by
  induction j using Nat.strong_induction_on with
  | _ j ih =>
    rcases (inChain_iff j k).1 h1 with rfl | ⟨hj, h3⟩
    · exact h2
    · exact (inChain_iff j i).2 (Or.inr ⟨hj, ih ((j - 1) / 2) (by omega) h3⟩)

theorem inChain_linear {j a b : Nat} (ha : inChain j a = true)
    (hb : inChain j b = true) : inChain a b = true ∨ inChain b a = true := by
  induction j using Nat.strong_induction_on with
  | _ j ih =>
    rcases (inChain_iff j a).1 ha with rfl | ⟨hj, ha2⟩
    · exact Or.inl hb
    · rcases (inChain_iff j b).1 hb with rfl | ⟨-, hb2⟩
      · exact Or.inr ha
      · exact ih ((j - 1) / 2) (by omega) ha2 hb2

theorem inChain_sibling_lr (i : Nat) : inChain (2 * i + 1) (2 * i + 2) = false := by
  by_contra h
  have := inChain_le (by simpa using h)
  omega

theorem inChain_sibling_rl (i : Nat) : inChain (2 * i + 2) (2 * i + 1) = false := by
  by_contra h
  have h2 := (inChain_iff _ _).1 (by simpa using h)
  rcases h2 with h3 | ⟨-, h3⟩
  · omega
  · have h4 : (2 * i + 2 - 1) / 2 = i := by omega
    rw [h4] at h3
    have := inChain_le h3
    omega

theorem mem_nodesIdx_chain {p : Nat × Int × Color} {t : PT} {idx : Nat}
    (h : p ∈ nodesIdx t idx) : inChain p.1 idx = true := by
  induction t generalizing idx with
  | nil => simp [nodesIdx] at h
  | node v c l r ihl ihr =>
    simp only [nodesIdx, List.mem_cons, List.mem_append] at h
    rcases h with rfl | h | h
    · exact inChain_refl idx
    · have h2 : idx * 2 + 1 = 2 * idx + 1 := by omega
      exact inChain_trans (ihl h) (by rw [h2]; exact inChain_left idx)
    · have h2 : idx * 2 + 2 = 2 * idx + 2 := by omega
      exact inChain_trans (ihr h) (by rw [h2]; exact inChain_right idx)

theorem chain_lr_disj {x i : Nat} (hl : inChain x (2 * i + 1) = true)
    (hr : inChain x (2 * i + 2) = true) : False := by
  rcases inChain_linear hl hr with h | h
  · rw [inChain_sibling_lr] at h
    exact Bool.noConfusion h
  · rw [inChain_sibling_rl] at h
    exact Bool.noConfusion h

theorem not_mem_nodesIdx_of_chain {j : Nat} {t : PT} {idx : Nat}
    (hj : inChain j idx = false) : ∀ vc : Int × Color, (j, vc) ∉ nodesIdx t idx := by
  intro vc hmem
  have := mem_nodesIdx_chain hmem
  simp [this] at hj

theorem inChain_eq_false_of_lt {j i : Nat} (h : j < i) : inChain j i = false := by
  cases hc : inChain j i
  · rfl
  · have := inChain_le hc
    omega

theorem treeToArrayHelper_length (t : PT) (idx : Nat)
    (result : List (Option (Int × Color))) :
    (treeToArrayHelper t idx result).length = result.length := by
  induction t generalizing idx result with
  | nil => rfl
  | node v c l r ihl ihr =>
    rw [treeToArrayHelper]
    split_ifs with h1
    · rw [ihr, ihl]
      simp
    · rfl

theorem treeToArrayHelper_getD_not_mem {j : Nat} (t : PT) (idx : Nat)
    (result : List (Option (Int × Color)))
    (h : ∀ vc : Int × Color, (j, vc) ∉ nodesIdx t idx) :
    (treeToArrayHelper t idx result).getD j none = result.getD j none := by
  induction t generalizing idx result with
  | nil => rfl
  | node v c l r ihl ihr =>
    have hne : j ≠ idx := by
      intro hj
      exact h (v, c) (by simp [nodesIdx, hj])
    have hnl : ∀ vc : Int × Color, (j, vc) ∉ nodesIdx l (idx * 2 + 1) := by
      intro vc hm
      exact h vc (by simp [nodesIdx, hm])
    have hnr : ∀ vc : Int × Color, (j, vc) ∉ nodesIdx r (idx * 2 + 2) := by
      intro vc hm
      exact h vc (by simp [nodesIdx, hm])
    rw [treeToArrayHelper]
    split_ifs with h1
    · rw [ihr _ _ hnr, ihl _ _ hnl]
      simp [List.getD_eq_getElem?_getD, List.getElem?_set_ne (Ne.symm hne)]
    · rfl

theorem treeToArrayHelper_getD_mem {j : Nat} {v0 : Int} {c0 : Color} (t : PT) (idx : Nat)
    (result : List (Option (Int × Color)))
    (hmem : (j, v0, c0) ∈ nodesIdx t idx)
    (hall : ∀ p ∈ nodesIdx t idx, p.1 < result.length) :
    (treeToArrayHelper t idx result).getD j none = some (v0, c0) := by
  induction t generalizing idx result with
  | nil => simp [nodesIdx] at hmem
  | node v c l r ihl ihr =>
    have hidx : idx < result.length := hall (idx, v, c) (by simp [nodesIdx])
    rw [treeToArrayHelper]
    rw [if_pos hidx]
    simp only [nodesIdx, List.mem_cons, List.mem_append] at hmem
    rcases hmem with heq | hm | hm
    · rw [Prod.mk.injEq, Prod.mk.injEq] at heq
      obtain ⟨rfl, rfl, rfl⟩ := heq
      have hcr : inChain j (j * 2 + 2) = false :=
        inChain_eq_false_of_lt (by omega)
      have hcl : inChain j (j * 2 + 1) = false :=
        inChain_eq_false_of_lt (by omega)
      rw [treeToArrayHelper_getD_not_mem r _ _ (not_mem_nodesIdx_of_chain hcr)]
      rw [treeToArrayHelper_getD_not_mem l _ _ (not_mem_nodesIdx_of_chain hcl)]
      simp [List.getD_eq_getElem?_getD, List.getElem?_set_self, hidx]
    · have hcl : inChain j (idx * 2 + 1) = true := mem_nodesIdx_chain hm
      have hcr : inChain j (idx * 2 + 2) = false := by
        cases hc : inChain j (idx * 2 + 2)
        · rfl
        · have h1 : idx * 2 + 1 = 2 * idx + 1 := by omega
          have h2 : idx * 2 + 2 = 2 * idx + 2 := by omega
          rw [h1] at hcl
          rw [h2] at hc
          exact absurd (chain_lr_disj hcl hc) (fun h => h)
      rw [treeToArrayHelper_getD_not_mem r _ _ (not_mem_nodesIdx_of_chain hcr)]
      refine ihl _ _ hm ?_
      intro p hp
      have := hall p (by simp [nodesIdx, hp])
      simpa using this
    · refine ihr _ _ hm ?_
      intro p hp
      have := hall p (by simp [nodesIdx, hp])
      rw [treeToArrayHelper_length]
      simpa using this

theorem treeToArray_length (t : PT) : (treeToArray t).length = 128 := by
  rw [treeToArray, treeToArrayHelper_length]
  simp

theorem treeToArray_getD_some {t : PT}
    (hall : ∀ p ∈ nodesIdx t 0, p.1 < 128) (j : Nat) (v : Int) (c : Color) :
    (treeToArray t).getD j none = some (v, c) ↔ (j, v, c) ∈ nodesIdx t 0 := by
  have hlen : ∀ p ∈ nodesIdx t 0, p.1 < (List.replicate 128 (none : Option (Int × Color))).length := by
    simpa using hall
  constructor
  · intro h
    by_cases hm : ∃ vc : Int × Color, (j, vc) ∈ nodesIdx t 0
    · obtain ⟨⟨v2, c2⟩, hm⟩ := hm
      have h2 := treeToArrayHelper_getD_mem t 0 _ hm hlen
      rw [treeToArray] at h
      rw [h2] at h
      obtain ⟨rfl, rfl⟩ : v2 = v ∧ c2 = c := by
        have := Option.some.inj h
        exact ⟨congrArg Prod.fst this, congrArg Prod.snd this⟩
      exact hm
    · push_neg at hm
      rw [treeToArray, treeToArrayHelper_getD_not_mem t 0 _ (fun vc => hm vc)] at h
      have hrep : (List.replicate 128 (none : Option (Int × Color))).getD j none = none := by
        rw [List.getD_eq_getElem?_getD, List.getElem?_replicate]
        split_ifs <;> rfl
      rw [hrep] at h
      exact Option.noConfusion h
  · intro hm
    rw [treeToArray]
    exact treeToArrayHelper_getD_mem t 0 _ hm hlen

theorem mem_nodesIdx_fst_chain {j : Nat} {t : PT} {idx : Nat}
    (h : j ∈ (nodesIdx t idx).map Prod.fst) : inChain j idx = true := by
  obtain ⟨p, hp, rfl⟩ := List.mem_map.1 h
  exact mem_nodesIdx_chain hp

theorem nodesIdx_fst_nodup (t : PT) (idx : Nat) :
    ((nodesIdx t idx).map Prod.fst).Nodup := by
  induction t generalizing idx with
  | nil => simp [nodesIdx]
  | node v c l r ihl ihr =>
    simp only [nodesIdx, List.map_cons, List.map_append, List.nodup_cons,
      List.nodup_append, List.mem_append]
    refine ⟨?_, ihl _, ihr _, ?_⟩
    · rintro (h | h)
      · have := inChain_le (mem_nodesIdx_fst_chain h)
        omega
      · have := inChain_le (mem_nodesIdx_fst_chain h)
        omega
    · intro a ha hb
      have h1 := mem_nodesIdx_fst_chain ha
      have h2 := mem_nodesIdx_fst_chain hb
      have e1 : idx * 2 + 1 = 2 * idx + 1 := by omega
      have e2 : idx * 2 + 2 = 2 * idx + 2 := by omega
      rw [e1] at h1
      rw [e2] at h2
      exact chain_lr_disj h1 h2

/-- The rendered element the render loop builds for a node slot
(render_state lines 772-775). -/
def renderElemOf (value : Int) (color : Color) : RenderElement :=
  (((RenderElement.new value).withLabel (toString value)).withSublabel
      (match color with | Color.red => "R" | Color.black => "B")).withState
    (match color with | Color.red => ElementState.comparing | Color.black => ElementState.normal)

/-- The blank filler element pushed by render_state (line 763). -/
def placeholderElem : RenderElement := (RenderElement.new 0).withLabel ""

/-- The elements component of one render-loop pass. -/
def elemStep (acc : List RenderElement) : Nat × Option (Int × Color) → List RenderElement
  | (_, none) => acc
  | (idx, some (v, c)) => (padElements acc (idx + 1)).set idx (renderElemOf v c)

/-- The connections pushed by one render-loop pass. -/
def entryConns (array : List (Option (Int × Color))) :
    Nat × Option (Int × Color) → List (Nat × Nat)
  | (_, none) => []
  | (idx, some _) =>
    (if idx * 2 + 1 < array.length && (array.getD (idx * 2 + 1) none).isSome
      then [(idx, idx * 2 + 1)] else []) ++
    (if idx * 2 + 2 < array.length && (array.getD (idx * 2 + 2) none).isSome
      then [(idx, idx * 2 + 2)] else [])

theorem renderFoldStep_split (array : List (Option (Int × Color)))
    (acc : List RenderElement × List (Nat × Nat)) (entry : Nat × Option (Int × Color)) :
    renderFoldStep array acc entry = (elemStep acc.1 entry, acc.2 ++ entryConns array entry) := by
  obtain ⟨idx, o⟩ := entry
  cases o with
  | none => simp [renderFoldStep, elemStep, entryConns]
  | some vc =>
    obtain ⟨v, c⟩ := vc
    simp only [renderFoldStep, elemStep, entryConns, renderElemOf]
    split_ifs <;> simp

theorem foldl_renderFoldStep (array : List (Option (Int × Color)))
    (l : List (Nat × Option (Int × Color))) (e : List RenderElement) (cs : List (Nat × Nat)) :
    l.foldl (renderFoldStep array) (e, cs) =
      (l.foldl elemStep e, cs ++ (l.map (entryConns array)).flatten) := by
  induction l generalizing e cs with
  | nil => simp
  | cons x xs ih =>
    rw [List.foldl_cons, renderFoldStep_split, ih]
    simp

/-- The elements list the render loop produces for a given slot array:
one rendered element per occupied slot, blank placeholders below the
last occupied slot, nothing beyond it. -/
def renderElems : List (Option (Int × Color)) → List RenderElement
  | [] => []
  | some (v, c) :: rest => renderElemOf v c :: renderElems rest
  | none :: rest =>
    match renderElems rest with
    | [] => []
    | e :: es => placeholderElem :: e :: es

theorem renderElems_length_le (l : List (Option (Int × Color))) :
    (renderElems l).length ≤ l.length := by
  induction l with
  | nil => simp [renderElems]
  | cons x rest ih =>
    match x with
    | some (v, c) => simpa [renderElems] using ih
    | none =>
      rw [renderElems]
      split
      · simp
      · rename_i e es heq
        rw [← heq]
        simpa using ih

theorem renderElems_append_none (l : List (Option (Int × Color))) :
    renderElems (l ++ [none]) = renderElems l := by
  induction l with
  | nil => rfl
  | cons x rest ih =>
    match x with
    | some (v, c) => simp [renderElems, ih]
    | none =>
      rw [List.cons_append, renderElems, renderElems, ih]

theorem renderElems_append_some (l : List (Option (Int × Color))) (v : Int) (c : Color) :
    renderElems (l ++ [some (v, c)]) =
      renderElems l ++ List.replicate (l.length - (renderElems l).length) placeholderElem ++
        [renderElemOf v c] := by
  induction l with
  | nil => rfl
  | cons x rest ih =>
    match x with
    | some (v2, c2) => simp [renderElems, ih]
    | none =>
      rw [List.cons_append, renderElems, ih]
      cases hre : renderElems rest with
      | nil =>
        simp only [renderElems, hre, List.nil_append, List.length_nil, Nat.sub_zero,
          List.length_cons]
        cases hsc : List.replicate rest.length placeholderElem ++ [renderElemOf v c] with
        | nil =>
          have h2 := congrArg List.length hsc
          simp at h2
        | cons f fs =>
          show placeholderElem :: f :: fs = _
          rw [← hsc, List.replicate_succ, List.cons_append]
      | cons e es =>
        have harith : rest.length + 1 - (es.length + 1 + 1) = rest.length - (es.length + 1) := by
          omega
        simp only [renderElems, hre, List.cons_append, List.length_cons, List.append_assoc,
          harith]

theorem replicate_set_last (k : Nat) (ph e : RenderElement) :
    (List.replicate (k + 1) ph).set k e = List.replicate k ph ++ [e] := by
  induction k with
  | zero => rfl
  | succ k ih =>
    rw [List.replicate_succ, List.set_cons_succ, ih]
    rw [List.replicate_succ]
    rfl

theorem elemStep_renderElems (done : List (Option (Int × Color)))
    (x : Option (Int × Color)) :
    elemStep (renderElems done) (done.length, x) = renderElems (done ++ [x]) := by
  cases x with
  | none => rw [renderElems_append_none]; rfl
  | some vc =>
    obtain ⟨v, c⟩ := vc
    rw [renderElems_append_some]
    have hle : (renderElems done).length ≤ done.length := renderElems_length_le done
    simp only [elemStep, padElements]
    rw [List.set_append_right _ _ (by omega)]
    have harith : done.length + 1 - (renderElems done).length =
        (done.length - (renderElems done).length) + 1 := by omega
    rw [harith, replicate_set_last]
    simp [placeholderElem, List.append_assoc]

theorem foldl_elemStep_renderElems (rest : List (Option (Int × Color))) :
    ∀ done : List (Option (Int × Color)),
    (List.enumFrom done.length rest).foldl elemStep (renderElems done) =
      renderElems (done ++ rest) := by
  induction rest with
  | nil => intro done; simp
  | cons x xs ih =>
    intro done
    rw [List.enumFrom, List.foldl_cons, elemStep_renderElems]
    have hlen : (done ++ [x]).length = done.length + 1 := by simp
    have h2 := ih (done ++ [x])
    rw [hlen] at h2
    rw [h2, List.append_assoc]
    rfl

theorem renderState_elements (t : VisualizableRBTree) :
    (VisualizableRBTree.renderState t).elements = renderElems (treeToArray t.root) := by
  rw [VisualizableRBTree.renderState]
  rw [foldl_renderFoldStep]
  have h2 := foldl_elemStep_renderElems (treeToArray t.root) []
  simpa [List.enum] using h2

theorem renderState_connections (t : VisualizableRBTree) :
    (VisualizableRBTree.renderState t).connections =
      ((treeToArray t.root).enum.map (entryConns (treeToArray t.root))).flatten := by
  rw [VisualizableRBTree.renderState]
  rw [foldl_renderFoldStep]
  simp

theorem renderElems_getD_some (l : List (Option (Int × Color))) :
    ∀ (i : Nat) (v : Int) (c : Color), l.getD i none = some (v, c) →
      i < (renderElems l).length ∧
      (renderElems l).getD i placeholderElem = renderElemOf v c := by
  induction l with
  | nil =>
    intro i v c h
    simp [List.getD] at h
  | cons x rest ih =>
    intro i v c h
    cases i with
    | zero =>
      have hx : x = some (v, c) := by simpa using h
      subst hx
      exact ⟨by simp [renderElems], rfl⟩
    | succ i =>
      have h2 : rest.getD i none = some (v, c) := by simpa using h
      obtain ⟨hlen, hget⟩ := ih i v c h2
      cases x with
      | some vc2 =>
        obtain ⟨v2, c2⟩ := vc2
        refine ⟨?_, ?_⟩
        · rw [renderElems]
          simp only [List.length_cons]
          omega
        · rw [renderElems]
          simpa using hget
      | none =>
        cases hre : renderElems rest with
        | nil =>
          rw [hre] at hlen
          simp at hlen
        | cons e es =>
          rw [hre] at hlen hget
          rw [renderElems, hre]
          refine ⟨?_, ?_⟩
          · simp only [List.length_cons] at hlen ⊢
            omega
          · simpa using hget

theorem renderElems_getD_none (l : List (Option (Int × Color))) :
    ∀ i : Nat, i < (renderElems l).length → l.getD i none = none →
      (renderElems l).getD i placeholderElem = placeholderElem := by
  induction l with
  | nil =>
    intro i hi h
    simp [renderElems] at hi
  | cons x rest ih =>
    intro i hi h
    cases x with
    | some vc =>
      obtain ⟨v, c⟩ := vc
      cases i with
      | zero => simp at h
      | succ i =>
        rw [renderElems] at hi ⊢
        simp only [List.length_cons] at hi
        have h2 : rest.getD i none = none := by simpa using h
        simpa using ih i (by omega) h2
    | none =>
      cases hre : renderElems rest with
      | nil =>
        rw [renderElems, hre] at hi
        simp at hi
      | cons e es =>
        rw [renderElems, hre] at hi ⊢
        cases i with
        | zero => rfl
        | succ i =>
          simp only [List.length_cons] at hi
          have h2 : rest.getD i none = none := by simpa using h
          have h3 := ih i (by rw [hre]; simp only [List.length_cons]; omega) h2
          rw [hre] at h3
          simpa using h3

theorem renderElems_eq_nil_iff (l : List (Option (Int × Color))) :
    renderElems l = [] ↔ l.all Option.isNone = true := by
  induction l with
  | nil => simp [renderElems]
  | cons x rest ih =>
    cases x with
    | some vc =>
      obtain ⟨v, c⟩ := vc
      simp [renderElems]
    | none =>
      rw [renderElems]
      cases hre : renderElems rest with
      | nil =>
        rw [hre] at ih
        simpa using ih.1 rfl
      | cons e es =>
        rw [hre] at ih
        simp only [List.all_cons, Option.isNone, Bool.true_and]
        constructor
        · intro h
          exact absurd h (List.cons_ne_nil _ _)
        · intro h
          exact absurd (ih.2 h) (List.cons_ne_nil _ _)

theorem renderElems_filter_count (l : List (Option (Int × Color))) :
    ((renderElems l).filter (fun e => !(e.sublabel == ""))).length =
      (l.filter Option.isSome).length := by
  induction l with
  | nil => rfl
  | cons x rest ih =>
    cases x with
    | some vc =>
      obtain ⟨v, c⟩ := vc
      rw [renderElems]
      cases c <;>
        simp [List.filter_cons, renderElemOf, RenderElement.new, RenderElement.withLabel,
          RenderElement.withSublabel, RenderElement.withState, ih]
    | none =>
      cases hre : renderElems rest with
      | nil =>
        rw [renderElems, hre]
        have hall := (renderElems_eq_nil_iff rest).1 hre
        have hfil : rest.filter Option.isSome = [] := by
          rw [List.filter_eq_nil_iff]
          intro a ha
          have := (List.all_eq_true.1 hall) a ha
          simp_all
        simp [List.filter_cons, hfil]
      | cons e es =>
        rw [renderElems, hre]
        show (List.filter (fun e2 => !(e2.sublabel == "")) (placeholderElem :: e :: es)).length =
          (List.filter Option.isSome (none :: rest)).length
        rw [← hre]
        simp only [List.filter_cons]
        simpa [placeholderElem, RenderElement.new, RenderElement.withLabel] using ih

theorem length_filter_eq_range_count {α : Type} (p : α → Bool) (d : α) (l : List α) :
    (l.filter p).length =
      ((List.range l.length).filter (fun i => p (l.getD i d))).length := by
  induction l with
  | nil => rfl
  | cons x rest ih =>
    have hmap : (((List.range rest.length).map Nat.succ).filter
          (fun i => p ((x :: rest).getD i d))) =
        ((List.range rest.length).filter (fun i => p (rest.getD i d))).map Nat.succ := by
      rw [List.filter_map]
      rfl
    have h0 : (x :: rest).getD 0 d = x := rfl
    rw [List.length_cons, List.range_succ_eq_map, List.filter_cons, List.filter_cons, h0, hmap]
    cases hp : p x <;> simp [ih]

theorem treeToArray_some_count {t : PT}
    (hall : ∀ p ∈ nodesIdx t 0, p.1 < 128) :
    ((treeToArray t).filter Option.isSome).length = (nodesIdx t 0).length := by
  rw [length_filter_eq_range_count Option.isSome none, treeToArray_length]
  have hcongr : ∀ i ∈ List.range 128,
      (Option.isSome ((treeToArray t).getD i none)) =
        decide (i ∈ (nodesIdx t 0).map Prod.fst) := by
    intro i hi
    by_cases hmem : i ∈ (nodesIdx t 0).map Prod.fst
    · obtain ⟨⟨j, v, c⟩, hp, rfl⟩ := List.mem_map.1 hmem
      rw [(treeToArray_getD_some hall _ v c).2 hp]
      simp [hmem]
    · cases hgd : (treeToArray t).getD i none with
      | none => simp [hmem]
      | some vc =>
        obtain ⟨v, c⟩ := vc
        have h2 := (treeToArray_getD_some hall i v c).1 hgd
        exact absurd (List.mem_map.2 ⟨(i, v, c), h2, rfl⟩) hmem
  rw [List.filter_congr hcongr]
  have hnd := nodesIdx_fst_nodup t 0
  have hperm : ((List.range 128).filter
        (fun i => decide (i ∈ (nodesIdx t 0).map Prod.fst))).Perm
      ((nodesIdx t 0).map Prod.fst) := by
    apply List.perm_of_nodup_nodup_toFinset_eq
    · exact (List.nodup_range 128).filter _
    · exact hnd
    · ext a
      simp only [List.mem_toFinset, List.mem_filter, List.mem_range, decide_eq_true_eq]
      constructor
      · rintro ⟨-, h⟩
        exact h
      · intro h
        refine ⟨?_, h⟩
        obtain ⟨⟨j, v, c⟩, hp, rfl⟩ := List.mem_map.1 h
        exact hall _ hp
  rw [hperm.length_eq, List.length_map]

theorem renderState_elements_count {t : VisualizableRBTree}
    (hall : ∀ p ∈ nodesIdx t.root 0, p.1 < 128) :
    ((VisualizableRBTree.renderState t).elements.filter
        (fun e => !(e.sublabel == ""))).length = (nodesIdx t.root 0).length := by
  rw [renderState_elements, renderElems_filter_count, treeToArray_some_count hall]

theorem chain_child {a b : Nat} (hb : b = a * 2 + 1 ∨ b = a * 2 + 2) :
    inChain b a = true := by
  rcases hb with rfl | rfl
  · have h1 : a * 2 + 1 = 2 * a + 1 := by omega
    rw [h1]
    exact inChain_left a
  · have h1 : a * 2 + 2 = 2 * a + 2 := by omega
    rw [h1]
    exact inChain_right a

theorem chain_parent {a b i : Nat} (hb : b = a * 2 + 1 ∨ b = a * 2 + 2)
    (h : inChain b i = true) (hne : b ≠ i) : inChain a i = true := by
  rcases (inChain_iff b i).1 h with heq | ⟨hb0, h2⟩
  · exact absurd heq.symm hne
  · have hpar : (b - 1) / 2 = a := by rcases hb with rfl | rfl <;> omega
    rw [hpar] at h2
    exact h2

theorem nodesIdx_root_mem {l : PT} (hne : l ≠ PT.nil) (j : Nat) :
    ∃ vc : Int × Color, (j, vc) ∈ nodesIdx l j := by
  cases l with
  | nil => exact absurd rfl hne
  | node v c a b => exact ⟨(v, c), by simp [nodesIdx]⟩

theorem mem_linksIdx_shape {q : Nat × Nat} {t : PT} {idx : Nat}
    (h : q ∈ linksIdx t idx) :
    (q.2 = q.1 * 2 + 1 ∨ q.2 = q.1 * 2 + 2) ∧
      (∃ vc : Int × Color, (q.1, vc) ∈ nodesIdx t idx) ∧
      (∃ vc : Int × Color, (q.2, vc) ∈ nodesIdx t idx) := by
  induction t generalizing idx with
  | nil => simp [linksIdx] at h
  | node v c l r ihl ihr =>
    simp only [linksIdx, List.append_assoc, List.mem_append] at h
    rcases h with hh | hh | hh | hh
    · have hq : q = (idx, idx * 2 + 1) ∧ l ≠ PT.nil := by
        cases l <;> simp_all
      obtain ⟨rfl, hlne⟩ := hq
      obtain ⟨vc, hvc⟩ := nodesIdx_root_mem hlne (idx * 2 + 1)
      exact ⟨Or.inl rfl, ⟨(v, c), by simp [nodesIdx]⟩, ⟨vc, by simp [nodesIdx, hvc]⟩⟩
    · obtain ⟨hsh, ⟨vc1, hm1⟩, ⟨vc2, hm2⟩⟩ := ihl hh
      exact ⟨hsh, ⟨vc1, by simp [nodesIdx, hm1]⟩, ⟨vc2, by simp [nodesIdx, hm2]⟩⟩
    · have hq : q = (idx, idx * 2 + 2) ∧ r ≠ PT.nil := by
        cases r <;> simp_all
      obtain ⟨rfl, hrne⟩ := hq
      obtain ⟨vc, hvc⟩ := nodesIdx_root_mem hrne (idx * 2 + 2)
      exact ⟨Or.inr rfl, ⟨(v, c), by simp [nodesIdx]⟩, ⟨vc, by simp [nodesIdx, hvc]⟩⟩
    · obtain ⟨hsh, ⟨vc1, hm1⟩, ⟨vc2, hm2⟩⟩ := ihr hh
      exact ⟨hsh, ⟨vc1, by simp [nodesIdx, hm1]⟩, ⟨vc2, by simp [nodesIdx, hm2]⟩⟩

theorem mem_linksIdx_of_nodes {a b : Nat} {t : PT} {idx : Nat}
    (hb : b = a * 2 + 1 ∨ b = a * 2 + 2)
    (ha : ∃ vc : Int × Color, (a, vc) ∈ nodesIdx t idx)
    (hbm : ∃ vc : Int × Color, (b, vc) ∈ nodesIdx t idx) :
    (a, b) ∈ linksIdx t idx := by
  induction t generalizing idx with
  | nil =>
    obtain ⟨vc, hvc⟩ := ha
    simp [nodesIdx] at hvc
  | node v c l r ihl ihr =>
    obtain ⟨vca, hvca⟩ := ha
    obtain ⟨vcb, hvcb⟩ := hbm
    have hab : a < b := by rcases hb with rfl | rfl <;> omega
    simp only [nodesIdx, List.mem_cons, List.mem_append] at hvca hvcb
    have e1 : idx * 2 + 1 = 2 * idx + 1 := by omega
    have e2 : idx * 2 + 2 = 2 * idx + 2 := by omega
    rcases hvca with haeq | ham | ham
    · have haidx : a = idx := congrArg Prod.fst haeq
      rcases hvcb with hbeq | hbm2 | hbm2
      · have hbidx : b = idx := congrArg Prod.fst hbeq
        omega
      · have hbc := mem_nodesIdx_chain hbm2
        rcases hb with rfl | rfl
        · have hq : (a, a * 2 + 1) = (idx, idx * 2 + 1) := by
            rw [Prod.mk.injEq]
            omega
          rw [hq]
          have hlne : l ≠ PT.nil := by
            intro hnil
            rw [hnil] at hbm2
            simp [nodesIdx] at hbm2
          cases l with
          | nil => exact absurd rfl hlne
          | node v2 c2 l2 r2 => simp [linksIdx]
        · exfalso
          have hbb : a * 2 + 2 = 2 * idx + 2 := by omega
          rw [hbb, e1] at hbc
          rw [inChain_sibling_rl] at hbc
          exact Bool.noConfusion hbc
      · have hbc := mem_nodesIdx_chain hbm2
        rcases hb with rfl | rfl
        · exfalso
          have hbb : a * 2 + 1 = 2 * idx + 1 := by omega
          rw [hbb, e2] at hbc
          rw [inChain_sibling_lr] at hbc
          exact Bool.noConfusion hbc
        · have hq : (a, a * 2 + 2) = (idx, idx * 2 + 2) := by
            rw [Prod.mk.injEq]
            omega
          rw [hq]
          have hrne : r ≠ PT.nil := by
            intro hnil
            rw [hnil] at hbm2
            simp [nodesIdx] at hbm2
          cases r with
          | nil => exact absurd rfl hrne
          | node v2 c2 l2 r2 =>
            cases l <;> simp [linksIdx]
    · have hac := mem_nodesIdx_chain ham
      have halow : idx * 2 + 1 ≤ a := inChain_le hac
      rcases hvcb with hbeq | hbm2 | hbm2
      · have : b = idx := congrArg Prod.fst hbeq
        omega
      · have hmem := ihl ⟨vca, ham⟩ ⟨vcb, hbm2⟩
        simp [linksIdx, hmem]
      · exfalso
        have hbc := mem_nodesIdx_chain hbm2
        have hbne : b ≠ idx * 2 + 2 := by omega
        have hac2 : inChain a (idx * 2 + 2) = true := chain_parent hb hbc hbne
        rw [e1] at hac
        rw [e2] at hac2
        exact chain_lr_disj hac hac2
    · have hac := mem_nodesIdx_chain ham
      have halow : idx * 2 + 2 ≤ a := inChain_le hac
      rcases hvcb with hbeq | hbm2 | hbm2
      · have : b = idx := congrArg Prod.fst hbeq
        omega
      · exfalso
        have hbc := mem_nodesIdx_chain hbm2
        have hbne : b ≠ idx * 2 + 1 := by omega
        have hac2 : inChain a (idx * 2 + 1) = true := chain_parent hb hbc hbne
        rw [e1] at hac2
        rw [e2] at hac
        exact chain_lr_disj hac2 hac
      · have hmem := ihr ⟨vca, ham⟩ ⟨vcb, hbm2⟩
        simp [linksIdx, hmem]

theorem mem_entryConns_iff (array : List (Option (Int × Color))) (p : Nat × Nat)
    (i : Nat) (o : Option (Int × Color)) :
    p ∈ entryConns array (i, o) ↔
      o.isSome = true ∧
      ((p = (i, i * 2 + 1) ∧ i * 2 + 1 < array.length ∧
          (array.getD (i * 2 + 1) none).isSome = true) ∨
       (p = (i, i * 2 + 2) ∧ i * 2 + 2 < array.length ∧
          (array.getD (i * 2 + 2) none).isSome = true)) := by
  cases o with
  | none => simp [entryConns]
  | some vc =>
    simp only [entryConns, List.mem_append, Option.isSome_some, true_and]
    constructor
    · rintro (h | h)
      · split_ifs at h with hc
        · rw [List.mem_singleton] at h
          subst h
          simp only [Bool.and_eq_true, decide_eq_true_eq] at hc
          exact Or.inl ⟨rfl, hc.1, hc.2⟩
        · exact absurd h (List.not_mem_nil p)
      · split_ifs at h with hc
        · rw [List.mem_singleton] at h
          subst h
          simp only [Bool.and_eq_true, decide_eq_true_eq] at hc
          exact Or.inr ⟨rfl, hc.1, hc.2⟩
        · exact absurd h (List.not_mem_nil p)
    · rintro (⟨rfl, hlt, hs⟩ | ⟨rfl, hlt, hs⟩)
      · have hsg : array[i * 2 + 1].isSome = true := by
          rw [List.getD_eq_getElem?_getD, List.getElem?_eq_getElem hlt] at hs
          simpa using hs
        left
        rw [if_pos (by simp [hlt, hsg])]
        simp
      · have hsg : array[i * 2 + 2].isSome = true := by
          rw [List.getD_eq_getElem?_getD, List.getElem?_eq_getElem hlt] at hs
          simpa using hs
        right
        rw [if_pos (by simp [hlt, hsg])]
        simp

theorem mem_renderConns_iff {t : VisualizableRBTree}
    (hall : ∀ q ∈ nodesIdx t.root 0, q.1 < 128) (p : Nat × Nat) :
    p ∈ (VisualizableRBTree.renderState t).connections ↔ p ∈ linksIdx t.root 0 := by
  rw [renderState_connections]
  have hsome : ∀ j : Nat, ((treeToArray t.root).getD j none).isSome = true ↔
      ∃ vc : Int × Color, (j, vc) ∈ nodesIdx t.root 0 := by
    intro j
    constructor
    · intro h
      obtain ⟨⟨v, c⟩, hvc⟩ := Option.isSome_iff_exists.1 h
      exact ⟨(v, c), (treeToArray_getD_some hall j v c).1 hvc⟩
    · rintro ⟨⟨v, c⟩, hvc⟩
      rw [(treeToArray_getD_some hall j v c).2 hvc]
      rfl
  constructor
  · intro h
    obtain ⟨chunk, hchunk, hp⟩ := List.mem_flatten.1 h
    obtain ⟨⟨i, o⟩, hio, rfl⟩ := List.mem_map.1 hchunk
    obtain ⟨hosome, hcase⟩ := (mem_entryConns_iff _ p i o).1 hp
    have hgd : (treeToArray t.root)[i]? = some o := List.mk_mem_enum_iff_getElem?.1 hio
    have hgdD : (treeToArray t.root).getD i none = o := by
      rw [List.getD_eq_getElem?_getD, hgd]
      rfl
    have hisome : ∃ vc : Int × Color, (i, vc) ∈ nodesIdx t.root 0 := by
      rw [← hsome i, hgdD]
      exact hosome
    rcases hcase with ⟨rfl, hlt, hcs⟩ | ⟨rfl, hlt, hcs⟩
    · exact mem_linksIdx_of_nodes (Or.inl rfl) hisome ((hsome _).1 hcs)
    · exact mem_linksIdx_of_nodes (Or.inr rfl) hisome ((hsome _).1 hcs)
  · intro h
    obtain ⟨a, b⟩ := p
    obtain ⟨hsh, hamem, hbmem⟩ := mem_linksIdx_shape h
    simp only at hsh hamem hbmem
    obtain ⟨⟨va, ca⟩, hva⟩ := hamem
    have hga : (treeToArray t.root).getD a none = some (va, ca) :=
      (treeToArray_getD_some hall a va ca).2 hva
    have halt : a < (treeToArray t.root).length := by
      rw [treeToArray_length]
      exact hall _ hva
    have hgel : (treeToArray t.root)[a]? = some ((treeToArray t.root).getD a none) := by
      rw [List.getD_eq_getElem?_getD, List.getElem?_eq_getElem halt]
      rfl
    rw [hga] at hgel
    have henum : (a, some ((va : Int), ca)) ∈ (treeToArray t.root).enum :=
      List.mk_mem_enum_iff_getElem?.2 hgel
    apply List.mem_flatten.2
    refine ⟨entryConns (treeToArray t.root) (a, some (va, ca)),
      List.mem_map.2 ⟨(a, some (va, ca)), henum, rfl⟩, ?_⟩
    apply (mem_entryConns_iff _ _ _ _).2
    refine ⟨rfl, ?_⟩
    have hblt : b < (treeToArray t.root).length := by
      obtain ⟨vcb, hvb⟩ := hbmem
      rw [treeToArray_length]
      exact hall _ hvb
    have hbsome := (hsome b).2 hbmem
    rcases hsh with rfl | rfl
    · exact Or.inl ⟨rfl, hblt, hbsome⟩
    · exact Or.inr ⟨rfl, hblt, hbsome⟩

theorem mem_conns_snd {array : List (Option (Int × Color))}
    {l : List (Nat × Option (Int × Color))} {q : Nat}
    (h : q ∈ (l.map (entryConns array)).flatten.map Prod.snd) :
    ∃ i ∈ l.map Prod.fst, q = i * 2 + 1 ∨ q = i * 2 + 2 := by
  induction l with
  | nil => simp at h
  | cons x xs ih =>
    obtain ⟨i, o⟩ := x
    simp only [List.map_cons, List.flatten_cons, List.map_append, List.mem_append] at h
    rcases h with h | h
    · obtain ⟨p, hp, rfl⟩ := List.mem_map.1 h
      obtain ⟨-, hc⟩ := (mem_entryConns_iff array p i o).1 hp
      rcases hc with ⟨rfl, -, -⟩ | ⟨rfl, -, -⟩
      · exact ⟨i, by simp, Or.inl rfl⟩
      · exact ⟨i, by simp, Or.inr rfl⟩
    · obtain ⟨i2, hi2, hq⟩ := ih h
      exact ⟨i2, List.mem_cons_of_mem _ hi2, hq⟩

theorem conns_snd_nodup (array : List (Option (Int × Color)))
    (l : List (Nat × Option (Int × Color))) (hnd : (l.map Prod.fst).Nodup) :
    ((l.map (entryConns array)).flatten.map Prod.snd).Nodup := by
  induction l with
  | nil => simp
  | cons x xs ih =>
    obtain ⟨i, o⟩ := x
    rw [List.map_cons] at hnd
    rw [List.nodup_cons] at hnd
    simp only [List.map_cons, List.flatten_cons, List.map_append]
    rw [List.nodup_append]
    refine ⟨?_, ih hnd.2, ?_⟩
    · cases o with
      | none => simp [entryConns]
      | some vc =>
        simp only [entryConns]
        split_ifs <;> simp <;> omega
    · intro q hq1 hq2
      obtain ⟨i2, hi2, hq⟩ := mem_conns_snd hq2
      obtain ⟨p, hp, rfl⟩ := List.mem_map.1 hq1
      obtain ⟨-, hc⟩ := (mem_entryConns_iff array p i o).1 hp
      have hine : i ≠ i2 := fun he => hnd.1 (he ▸ hi2)
      rcases hc with ⟨rfl, -, -⟩ | ⟨rfl, -, -⟩ <;> rcases hq with h2 | h2 <;>
        simp only at h2 <;> omega

theorem renderConns_nodup (t : VisualizableRBTree) :
    (VisualizableRBTree.renderState t).connections.Nodup := by
  rw [renderState_connections]
  refine List.Nodup.of_map Prod.snd ?_
  refine conns_snd_nodup _ _ ?_
  have h2 := List.nodup_enum_map_fst (treeToArray t.root)
  exact h2

theorem linksIdx_snd_facts {q : Nat} {t : PT} {idx : Nat}
    (h : q ∈ (linksIdx t idx).map Prod.snd) : inChain q idx = true ∧ idx < q := by
  obtain ⟨⟨a, b⟩, hab, rfl⟩ := List.mem_map.1 h
  obtain ⟨hsh, hamem, hbmem⟩ := mem_linksIdx_shape hab
  simp only at hsh hamem hbmem
  obtain ⟨vcb, hvb⟩ := hbmem
  obtain ⟨vca, hva⟩ := hamem
  have hchain := mem_nodesIdx_chain hvb
  have hac := mem_nodesIdx_chain hva
  have hage := inChain_le hac
  exact ⟨hchain, by rcases hsh with rfl | rfl <;> omega⟩

theorem linksIdx_snd_nodup (t : PT) (idx : Nat) :
    ((linksIdx t idx).map Prod.snd).Nodup := by
  induction t generalizing idx with
  | nil => simp [linksIdx]
  | node v c l r ihl ihr =>
    have e1 : idx * 2 + 1 = 2 * idx + 1 := by omega
    have e2 : idx * 2 + 2 = 2 * idx + 2 := by omega
    simp only [linksIdx, List.append_assoc, List.map_append]
    rw [List.nodup_append]
    refine ⟨?_, ?_, ?_⟩
    · cases l <;> simp
    · rw [List.nodup_append]
      refine ⟨ihl _, ?_, ?_⟩
      · rw [List.nodup_append]
        refine ⟨?_, ihr _, ?_⟩
        · cases r <;> simp
        · intro q hq1 hq2
          have hq : q = idx * 2 + 2 := by
            cases r <;> simp_all
          obtain ⟨hc2, hgt2⟩ := linksIdx_snd_facts hq2
          omega
      · intro q hq1 hq2
        obtain ⟨hc1, hgt1⟩ := linksIdx_snd_facts hq1
        rw [List.mem_append] at hq2
        rcases hq2 with hq2 | hq2
        · have hq : q = idx * 2 + 2 := by
            cases r <;> simp_all
          subst hq
          rw [e1] at hc1
          rw [show idx * 2 + 2 = 2 * idx + 2 from by omega] at hc1
          rw [inChain_sibling_rl] at hc1
          exact Bool.noConfusion hc1
        · obtain ⟨hc2, hgt2⟩ := linksIdx_snd_facts hq2
          rw [e1] at hc1
          rw [e2] at hc2
          exact chain_lr_disj hc1 hc2
    · intro q hq1 hq2
      have hq : q = idx * 2 + 1 := by
        cases l <;> simp_all
      subst hq
      simp only [List.mem_append] at hq2
      rcases hq2 with hq2 | hq2 | hq2
      · obtain ⟨-, hgt⟩ := linksIdx_snd_facts hq2
        omega
      · have hq : idx * 2 + 1 = idx * 2 + 2 := by
          cases r <;> simp_all
        omega
      · obtain ⟨hc2, -⟩ := linksIdx_snd_facts hq2
        rw [e2] at hc2
        rw [show idx * 2 + 1 = 2 * idx + 1 from by omega] at hc2
        rw [inChain_sibling_lr] at hc2
        exact Bool.noConfusion hc2

theorem renderConns_perm {t : VisualizableRBTree}
    (hall : ∀ q ∈ nodesIdx t.root 0, q.1 < 128) :
    (VisualizableRBTree.renderState t).connections.Perm (linksIdx t.root 0) := by
  apply List.perm_of_nodup_nodup_toFinset_eq (renderConns_nodup t)
    (List.Nodup.of_map Prod.snd (linksIdx_snd_nodup t.root 0))
  ext p
  simp only [List.mem_toFinset]
  exact mem_renderConns_iff hall p

set_option maxRecDepth 1000000 in
/-- C5 counterexample: the claim asserts the render projection has one
entry for every node of every reachable tree, but tree_to_array uses a
fixed 128-slot array, so a node whose complete-binary-tree position
index reaches 128 is silently dropped.  Inserting 31, 30, ..., 1 in
descending order yields a reachable 31-node tree with a node at
position index 128: its render projection has fewer populated entries
than the tree has nodes. -/
theorem C5_counterexample :
    ((buildTree ((List.range 31).map (fun i => (31 : Int) - i))).renderState.elements.filter
        (fun e => !(e.sublabel == ""))).length <
      (buildTree ((List.range 31).map (fun i => (31 : Int) - i))).size := by
  decide

/-- C5 (amended): for every tree all of whose node position indices are
below the 128-slot cap, the render projection is faithful: the element
at each node's position index carries that node's value and color
rendering, elements at non-node indices are blank placeholders, the
number of populated elements equals the number of nodes, and the
connection list is a permutation of the tree's (parent index, child
index) links; the projection reads the tree without modifying it. -/
theorem C5_render_amended (t : VisualizableRBTree)
    (hall : ∀ p ∈ nodesIdx t.root 0, p.1 < 128) :
    (∀ p ∈ nodesIdx t.root 0,
        p.1 < (VisualizableRBTree.renderState t).elements.length ∧
        (VisualizableRBTree.renderState t).elements.getD p.1 placeholderElem =
          renderElemOf p.2.1 p.2.2) ∧
    (∀ i, i < (VisualizableRBTree.renderState t).elements.length →
        (∀ vc : Int × Color, (i, vc) ∉ nodesIdx t.root 0) →
        (VisualizableRBTree.renderState t).elements.getD i placeholderElem = placeholderElem) ∧
    ((VisualizableRBTree.renderState t).elements.filter
        (fun e => !(e.sublabel == ""))).length = (nodesIdx t.root 0).length ∧
    (VisualizableRBTree.renderState t).connections.Perm (linksIdx t.root 0) := by
  refine ⟨?_, ?_, renderState_elements_count hall, renderConns_perm hall⟩
  · rintro ⟨i, v, c⟩ hp
    have hgd := (treeToArray_getD_some hall i v c).2 hp
    rw [renderState_elements]
    exact renderElems_getD_some (treeToArray t.root) i v c hgd
  · intro i hlen hnot
    rw [renderState_elements] at hlen ⊢
    apply renderElems_getD_none _ _ hlen
    cases hgd : (treeToArray t.root).getD i none with
    | none => rfl
    | some vc =>
      obtain ⟨v, c⟩ := vc
      exact absurd ((treeToArray_getD_some hall i v c).1 hgd) (hnot (v, c))

/-- C5 witness: the amended render faithfulness applied at a concrete
tree whose indices all fit the cap. -/
theorem C5_render_amended_witness :
    (∀ p ∈ nodesIdx (buildTree [50, 25, 75]).root 0,
        p.1 < (VisualizableRBTree.renderState (buildTree [50, 25, 75])).elements.length ∧
        (VisualizableRBTree.renderState (buildTree [50, 25, 75])).elements.getD p.1
            placeholderElem = renderElemOf p.2.1 p.2.2) ∧
    (∀ i, i < (VisualizableRBTree.renderState (buildTree [50, 25, 75])).elements.length →
        (∀ vc : Int × Color, (i, vc) ∉ nodesIdx (buildTree [50, 25, 75]).root 0) →
        (VisualizableRBTree.renderState (buildTree [50, 25, 75])).elements.getD i
            placeholderElem = placeholderElem) ∧
    ((VisualizableRBTree.renderState (buildTree [50, 25, 75])).elements.filter
        (fun e => !(e.sublabel == ""))).length =
      (nodesIdx (buildTree [50, 25, 75]).root 0).length ∧
    (VisualizableRBTree.renderState (buildTree [50, 25, 75])).connections.Perm
      (linksIdx (buildTree [50, 25, 75]).root 0) :=
  C5_render_amended (buildTree [50, 25, 75]) (by decide)

/-- A parent-grandparent tower that drives the insert fixup through the
uncle-red case once per pair: a RED parent frame below a grandparent
frame whose sibling (the uncle) is a RED node. -/
def towerCtx : Nat → Ctx
  | 0 => []
  | n + 1 =>
    ⟨0, .red, .left, .nil⟩ :: ⟨0, .black, .left, .node 0 .red .nil .nil⟩ :: towerCtx n

/-- A deep spine of BLACK parent frames whose siblings are BLACK nodes
with nil (hence BLACK) children: the delete fixup runs one case-2
iteration per frame, moving up one level each time. -/
def deepDelCtx (n : Nat) : Ctx :=
  List.replicate n ⟨0, .black, .left, .node 0 .black .nil .nil⟩

theorem insertFixupLoopSteps_ok_or_bound (ctx : Ctx) (z : PT) (steps : List Step) (it : Nat) :
    (∃ steps2, (insertFixupLoopSteps ctx z steps it).2 = Except.ok steps2) ∨
    (insertFixupLoopSteps ctx z steps it).2 =
      Except.error (DsavError.invalidState "Fixup loop exceeded maximum iterations") := by
  have main : ∀ (fuel : Nat) (ctx : Ctx) (z : PT) (steps : List Step) (it : Nat),
      101 - it ≤ fuel →
      (∃ steps2, (insertFixupLoopSteps ctx z steps it).2 = Except.ok steps2) ∨
      (insertFixupLoopSteps ctx z steps it).2 =
        Except.error (DsavError.invalidState "Fixup loop exceeded maximum iterations") := by
    intro fuel
    induction fuel with
    | zero =>
      intro ctx z steps it hle
      rcases ctx with _ | ⟨⟨fv, fc, fd, fs⟩, _ | ⟨⟨gv, gc, gd, gs⟩, rest2⟩⟩
      · exact Or.inl ⟨_, by simp only [insertFixupLoopSteps]; rfl⟩
      · cases fc <;> exact Or.inl ⟨_, by simp only [insertFixupLoopSteps]; rfl⟩
      · cases fc with
        | red =>
          cases gd <;>
            · simp only [insertFixupLoopSteps]
              (repeat' split) <;>
                first
                  | exact Or.inl ⟨_, rfl⟩
                  | exact Or.inr rfl
                  | omega
        | black => exact Or.inl ⟨_, by simp only [insertFixupLoopSteps]; rfl⟩
    | succ n ih =>
      intro ctx z steps it hle
      rcases ctx with _ | ⟨⟨fv, fc, fd, fs⟩, _ | ⟨⟨gv, gc, gd, gs⟩, rest2⟩⟩
      · exact Or.inl ⟨_, by simp only [insertFixupLoopSteps]; rfl⟩
      · cases fc <;> exact Or.inl ⟨_, by simp only [insertFixupLoopSteps]; rfl⟩
      · cases fc with
        | red =>
          cases gd <;>
            · simp only [insertFixupLoopSteps]
              (repeat' split) <;>
                first
                  | exact Or.inl ⟨_, rfl⟩
                  | exact Or.inr rfl
                  | (apply ih
                     omega)
        | black => exact Or.inl ⟨_, by simp only [insertFixupLoopSteps]; rfl⟩
  exact main 101 ctx z steps it (by omega)

/-- The case-2 step the delete fixup records while walking the deep
spine: k frames remain below, j is the recorded iteration number. -/
def deepDelStep (k : Nat) (j : Nat) : Step :=
  { description := "Case 2: Sibling's children are BLACK, recoloring sibling to RED",
    highlightIndices := [idxOfCtx (deepDelCtx k) * 2 + 2], activeIndices := [],
    metadata := [("case", .str "both_children_black"), ("iteration", .num (Int.ofNat j))] }

theorem deepDel_step_eq (n : Nat) (x2 : PT) (steps : List Step) (it : Nat) :
    deleteFixupStepSteps ⟨0, .black, .left, .node 0 .black .nil .nil⟩ (deepDelCtx n)
        x2 steps it =
      .inl (deepDelCtx n, .node 0 .black x2 (.node 0 .red .nil .nil),
        steps ++ [deepDelStep n (it + 1)]) := by
  simp [deleteFixupStepSteps, xIsLeftOf, PT.isRed, deepDelStep]

theorem deepDel_run (n : Nat) : ∀ (x : PT) (steps : List Step) (it : Nat), x.isRed = false →
    ∃ tree, deleteFixupLoopSteps (deepDelCtx n) x steps it =
      (tree, steps ++ (List.range n).map (fun i => deepDelStep (n - 1 - i) (it + i + 1))) := by
  induction n with
  | zero =>
    intro x steps it hx
    cases x with
    | nil =>
      refine ⟨PT.nil.setRootColor Color.black, ?_⟩
      simp only [deepDelCtx, List.replicate, deleteFixupLoopSteps, List.range_zero,
        List.map_nil, List.append_nil]
    | node xv xc xl xr =>
      cases xc with
      | red => simp [PT.isRed] at hx
      | black =>
        refine ⟨(PT.node xv Color.black xl xr).setRootColor Color.black, ?_⟩
        simp only [deepDelCtx, List.replicate, deleteFixupLoopSteps, List.range_zero,
          List.map_nil, List.append_nil]
  | succ n ih =>
    intro x steps it hx
    have hctx : deepDelCtx (n + 1) =
        ⟨0, .black, .left, .node 0 .black .nil .nil⟩ :: deepDelCtx n := by
      simp [deepDelCtx, List.replicate_succ]
    obtain ⟨tree, htree⟩ := ih (.node 0 .black x (.node 0 .red .nil .nil))
      (steps ++ [deepDelStep n (it + 1)]) (it + 1) rfl
    have hmap : (List.range (n + 1)).map (fun i => deepDelStep (n + 1 - 1 - i) (it + i + 1)) =
        deepDelStep n (it + 1) ::
          (List.range n).map (fun i => deepDelStep (n - 1 - i) (it + 1 + i + 1)) := by
      rw [List.range_succ_eq_map, List.map_cons, List.map_map]
      congr 1
      apply List.map_congr_left
      intro i hi
      have e1 : n + 1 - 1 - (i + 1) = n - 1 - i := by omega
      have e2 : it + (i + 1) + 1 = it + 1 + i + 1 := by omega
      simp only [Function.comp_apply, e1, e2]
    have hlist : (steps ++ [deepDelStep n (it + 1)]) ++
        (List.range n).map (fun i => deepDelStep (n - 1 - i) (it + 1 + i + 1)) =
        steps ++ (List.range (n + 1)).map (fun i => deepDelStep (n + 1 - 1 - i) (it + i + 1)) := by
      rw [hmap]
      simp [List.append_assoc]
    cases x with
    | nil =>
      refine ⟨tree, ?_⟩
      rw [hctx]
      simp only [deleteFixupLoopSteps]
      split
      next ctx2 x2 steps2 heq =>
        rw [deepDel_step_eq] at heq
        obtain ⟨rfl, rfl, rfl⟩ :
            deepDelCtx n = ctx2 ∧
            PT.node 0 Color.black PT.nil (PT.node 0 Color.red PT.nil PT.nil) = x2 ∧
            steps ++ [deepDelStep n (it + 1)] = steps2 := by simpa using heq
        rw [htree, hlist]
      next r heq =>
        rw [deepDel_step_eq] at heq
        exact absurd heq (by simp)
    | node xv xc xl xr =>
      cases xc with
      | red => simp [PT.isRed] at hx
      | black =>
        refine ⟨tree, ?_⟩
        rw [hctx]
        simp only [deleteFixupLoopSteps]
        split
        next ctx2 x2 steps2 heq =>
          rw [deepDel_step_eq] at heq
          obtain ⟨rfl, rfl, rfl⟩ :
              deepDelCtx n = ctx2 ∧
              PT.node 0 Color.black (PT.node xv Color.black xl xr)
                (PT.node 0 Color.red PT.nil PT.nil) = x2 ∧
              steps ++ [deepDelStep n (it + 1)] = steps2 := by simpa using heq
          rw [htree, hlist]
        next r heq =>
          rw [deepDel_step_eq] at heq
          exact absurd heq (by simp)

theorem tower_run : ∀ (n : Nat) (z : PT) (steps : List Step) (it : Nat),
    it + n = 101 → 1 ≤ n →
    (insertFixupLoopSteps (towerCtx n) z steps it).2 =
      Except.error (DsavError.invalidState "Fixup loop exceeded maximum iterations") := by
  intro n
  induction n with
  | zero =>
    intro z steps it h h1
    omega
  | succ n ih =>
    intro z steps it hsum h1
    rw [towerCtx]
    by_cases hn : n = 0
    · subst hn
      have hit : it = 100 := by omega
      subst hit
      simp [insertFixupLoopSteps, PT.isRed]
    · have hit : it + 1 + n = 101 := by omega
      have hlt : ¬ (it + 1 > 100) := by omega
      simp only [insertFixupLoopSteps, PT.isRed]
      simp [hlt]
      exact ih _ _ _ hit (by omega)

set_option maxRecDepth 1000000 in
/-- C8 counterexample: the claim asserts both fixup loops surface an
InvalidState error when they exceed the 100-iteration bound, but the
deletion fixup only counts iterations and never checks the bound.  On a
105-frame spine it runs 105 case-2 iterations (the final step records
iteration 105) and still returns Ok. -/
theorem C8_counterexample :
    ∃ steps, (deleteFixupSteps (deepDelCtx 105) PT.nil []).2 = Except.ok steps ∧
      ∃ s ∈ steps, ("iteration", JVal.num 105) ∈ s.metadata := by
  obtain ⟨tree, htree⟩ := deepDel_run 105 PT.nil [] 0 rfl
  have hds : (deleteFixupSteps (deepDelCtx 105) PT.nil []).2 =
      Except.ok (([] ++ (List.range 105).map (fun i => deepDelStep (105 - 1 - i) (0 + i + 1))) ++
        [{ description := "Delete fixup complete, Red-Black properties restored",
           highlightIndices := [], activeIndices := [],
           metadata := [("fixup_complete", JVal.bool true)] }]) := by
    simp only [deleteFixupSteps, htree]
  refine ⟨_, hds, ?_⟩
  refine ⟨deepDelStep 0 105, ?_, by simp [deepDelStep]⟩
  apply List.mem_append_left
  apply List.mem_append_right
  refine List.mem_map.2 ⟨104, by simp, ?_⟩
  norm_num

set_option maxRecDepth 1000000 in
/-- C8 (amended): only the insertion fixup enforces the 100-iteration
bound: it either returns Ok or surfaces exactly the InvalidState
fixup-bound error, and a 101-level uncle-red tower does trigger that
error; the deletion fixup with steps counts iterations but never checks
the bound, and always returns Ok. -/
theorem C8_fixup_bound_amended :
    (∀ (ctx : Ctx) (z : PT) (steps : List Step) (it : Nat),
        (∃ steps2, (insertFixupLoopSteps ctx z steps it).2 = Except.ok steps2) ∨
        (insertFixupLoopSteps ctx z steps it).2 =
          Except.error (DsavError.invalidState "Fixup loop exceeded maximum iterations")) ∧
    ((insertFixupLoopSteps (towerCtx 101) (PT.node 0 Color.red PT.nil PT.nil) [] 0).2 =
      Except.error (DsavError.invalidState "Fixup loop exceeded maximum iterations")) ∧
    (∀ (ctx : Ctx) (x : PT) (steps : List Step), ∃ tree steps2,
        deleteFixupSteps ctx x steps = (tree, Except.ok steps2)) := by
  refine ⟨insertFixupLoopSteps_ok_or_bound, tower_run 101 _ _ 0 (by omega) (by omega), ?_⟩
  intro ctx x steps
  rcases hres : deleteFixupLoopSteps ctx x steps 0 with ⟨tree, steps2⟩
  exact ⟨tree, _, by rw [deleteFixupSteps, hres]⟩

/-- The red-black balance relation in standard form: Balanced t c n
means t is a valid red-black subtree whose root bears color c and every
path from its root to a vacant slot crosses exactly n black nodes. -/
inductive Balanced : PT → Color → Nat → Prop where
  | nil : Balanced .nil .black 0
  | red {v : Int} {l r : PT} {n : Nat} :
      Balanced l .black n → Balanced r .black n → Balanced (.node v .red l r) .red n
  | black {v : Int} {l r : PT} {cl cr : Color} {n : Nat} :
      Balanced l cl n → Balanced r cr n → Balanced (.node v .black l r) .black (n + 1)

theorem Balanced.isRed_false {t : PT} {n : Nat} (h : Balanced t .black n) :
    t.isRed = false := by
  cases h <;> rfl

theorem Balanced.red_of_isRed {t : PT} {c : Color} {n : Nat} (h : Balanced t c n)
    (hr : t.isRed = true) : c = .red := by
  cases h <;> simp_all [PT.isRed]

theorem Balanced.black_of_not_isRed {t : PT} {c : Color} {n : Nat} (h : Balanced t c n)
    (hr : t.isRed = false) : c = .black := by
  cases h <;> simp_all [PT.isRed]

theorem Balanced.verify {t : PT} {c : Color} {n : Nat} (h : Balanced t c n) :
    verifyRBRecursive t = (n + 1, true) := by
  induction h with
  | nil => rfl
  | red hl hr ihl ihr =>
    rw [verifyRBRecursive]
    rw [hl.isRed_false, hr.isRed_false]
    simp [ihl, ihr]
  | black hl hr ihl ihr =>
    rw [verifyRBRecursive]
    simp [ihl, ihr]

theorem Balanced.verifyProperties {t : PT} {n : Nat} (h : Balanced t .black n) :
    verifyRBProperties t = true := by
  cases h with
  | nil => rfl
  | black hl hr =>
    rw [verifyRBProperties, (Balanced.black hl hr).verify]
    rfl

theorem Balanced.blacken_red {t : PT} {n : Nat} (h : Balanced t .red n) :
    Balanced (t.setRootColor .black) .black (n + 1) := by
  cases h with
  | red hl hr => exact .black hl hr

theorem Balanced.blacken_keep {t : PT} {n : Nat} (h : Balanced t .black n) :
    Balanced (t.setRootColor .black) .black n := by
  cases h with
  | nil => exact .nil
  | black hl hr => exact .black hl hr

theorem Balanced.blacken {t : PT} {c : Color} {n : Nat} (h : Balanced t c n) :
    ∃ n2, Balanced (t.setRootColor .black) .black n2 := by
  cases c with
  | red => exact ⟨n + 1, h.blacken_red⟩
  | black => exact ⟨n, h.blacken_keep⟩

/-- The focus x of the delete fixup: either a balanced subtree of
height m, or a red-rooted node whose children are balanced at height m
with arbitrary root colors — the transient red-red violation the loop
repairs by immediately blackening x. -/
inductive DelFocus : PT → Nat → Prop where
  | black {x : PT} {m : Nat} : Balanced x .black m → DelFocus x m
  | redAny {v : Int} {l r : PT} {cl cr : Color} {m : Nat} :
      Balanced l cl m → Balanced r cr m → DelFocus (.node v .red l r) m

theorem DelFocus.of_balanced {t : PT} {c : Color} {m : Nat} (h : Balanced t c m) :
    DelFocus t m := by
  cases h with
  | nil => exact .black .nil
  | red hl hr => exact .redAny hl hr
  | black hl hr => exact .black (.black hl hr)

/-- Balance of a zipper context, innermost frame first: CtxBal c0 n0
ctx c n means filling the hole with any subtree balanced as (c, n)
yields a whole tree balanced as (c0, n0). -/
inductive CtxBal (c0 : Color) (n0 : Nat) : Ctx → Color → Nat → Prop where
  | root : CtxBal c0 n0 [] c0 n0
  | redFrame {v : Int} {d : Dir} {sib : PT} {rest : Ctx} {n : Nat} :
      Balanced sib .black n → CtxBal c0 n0 rest .red n →
      CtxBal c0 n0 (⟨v, .red, d, sib⟩ :: rest) .black n
  | blackFrame {v : Int} {d : Dir} {sib : PT} {rest : Ctx} {cs c : Color} {n : Nat} :
      Balanced sib cs n → CtxBal c0 n0 rest .black (n + 1) →
      CtxBal c0 n0 (⟨v, .black, d, sib⟩ :: rest) c n

theorem CtxBal.fill_balanced {c0 : Color} {n0 : Nat} {ctx : Ctx} {c : Color} {n : Nat}
    (hc : CtxBal c0 n0 ctx c n) : ∀ {t : PT}, Balanced t c n → Balanced (plug ctx t) c0 n0 := by
  induction hc with
  | root => exact fun ht => ht
  | redFrame hs hrest ih =>
    rename_i v d sib rest n
    intro t ht
    rw [plug]
    cases d with
    | left => exact ih (.red ht hs)
    | right => exact ih (.red hs ht)
  | blackFrame hs hrest ih =>
    rename_i v d sib rest cs c n
    intro t ht
    rw [plug]
    cases d with
    | left => exact ih (.black ht hs)
    | right => exact ih (.black hs ht)

theorem CtxBal.of_red {n0 : Nat} {ctx : Ctx} {n : Nat}
    (h : CtxBal .black n0 ctx .red n) (c2 : Color) : CtxBal .black n0 ctx c2 n := by
  cases h with
  | blackFrame hs hrest => exact .blackFrame hs hrest

theorem CtxBal.any_color {c0 : Color} {n0 : Nat} {v : Int} {d : Dir} {sib : PT}
    {rest : Ctx} {c : Color} {n : Nat}
    (h : CtxBal c0 n0 (⟨v, .black, d, sib⟩ :: rest) c n) (c2 : Color) :
    CtxBal c0 n0 (⟨v, .black, d, sib⟩ :: rest) c2 n := by
  cases h with
  | blackFrame hs hrest => exact .blackFrame hs hrest

theorem CtxBal.append {cm : Color} {nm : Nat} {a : Ctx} {c : Color} {n : Nat}
    {c0 : Color} {n0 : Nat} {b : Ctx}
    (ha : CtxBal cm nm a c n) (hb : CtxBal c0 n0 b cm nm) : CtxBal c0 n0 (a ++ b) c n := by
  induction ha with
  | root => exact hb
  | redFrame hs hrest ih => exact .redFrame hs ih
  | blackFrame hs hrest ih => exact .blackFrame hs ih

theorem insertBstGo_ctxBal {n0 : Nat} : ∀ (t : PT) (c : Color) (n : Nat) (ctx0 ctx : Ctx)
    (v : Int), Balanced t c n → CtxBal .black n0 ctx0 c n → insertBstGo t v ctx0 = some ctx →
    CtxBal .black n0 ctx .black 0 := by
  intro t
  induction t with
  | nil =>
    intro c n ctx0 ctx v hb hc hgo
    cases hb
    rw [insertBstGo] at hgo
    obtain rfl := Option.some.inj hgo
    exact hc
  | node v0 c0 l r ihl ihr =>
    intro c n ctx0 ctx v hb hc hgo
    rw [insertBstGo] at hgo
    split_ifs at hgo with h1 h2
    · cases hb with
      | red hl hr => exact ihl .black n _ _ v hl (.redFrame hr hc) hgo
      | black hl hr => exact ihl _ _ _ _ v hl (.blackFrame hr hc) hgo
    · cases hb with
      | red hl hr => exact ihr .black n _ _ v hr (.redFrame hl hc) hgo
      | black hl hr => exact ihr _ _ _ _ v hr (.blackFrame hl hc) hgo

theorem findNodeGo_ctxBal {n0 : Nat} : ∀ (t : PT) (c : Color) (n : Nat) (ctx0 ctx : Ctx)
    (v : Int) (z : PT), Balanced t c n → CtxBal .black n0 ctx0 c n →
    findNodeGo t v ctx0 = some (ctx, z) →
    ∃ cz nz, Balanced z cz nz ∧ CtxBal .black n0 ctx cz nz := by
  intro t
  induction t with
  | nil =>
    intro c n ctx0 ctx v z hb hc hgo
    exact absurd hgo (by simp [findNodeGo])
  | node v0 c0 l r ihl ihr =>
    intro c n ctx0 ctx v z hb hc hgo
    rw [findNodeGo] at hgo
    split_ifs at hgo with h1 h2
    · obtain ⟨rfl, rfl⟩ : ctx0 = ctx ∧ PT.node v0 c0 l r = z := by
        have h3 := Option.some.inj hgo
        exact ⟨congrArg Prod.fst h3, congrArg Prod.snd h3⟩
      exact ⟨c, n, hb, hc⟩
    · cases hb with
      | red hl hr => exact ihl .black n _ _ v z hl (.redFrame hr hc) hgo
      | black hl hr => exact ihl _ _ _ _ v z hl (.blackFrame hr hc) hgo
    · cases hb with
      | red hl hr => exact ihr .black n _ _ v z hr (.redFrame hl hc) hgo
      | black hl hr => exact ihr _ _ _ _ v z hr (.blackFrame hl hc) hgo

theorem treeMinimumZ_ctxBal {cR : Color} {nR : Nat} :
    ∀ (t : PT) (c : Color) (n : Nat) (ctx0 sctx : Ctx) (y : PT),
    Balanced t c n → CtxBal cR nR ctx0 c n → t ≠ .nil → treeMinimumZ t ctx0 = (sctx, y) →
    ∃ yv yc yr ny, y = .node yv yc .nil yr ∧ Balanced y yc ny ∧ CtxBal cR nR sctx yc ny := by
  intro t
  induction t with
  | nil =>
    intro c n ctx0 sctx y hb hc hne hmin
    exact absurd rfl hne
  | node v0 c0 l r ihl ihr =>
    intro c n ctx0 sctx y hb hc hne hmin
    cases l with
    | nil =>
      rw [treeMinimumZ] at hmin
      obtain ⟨rfl, rfl⟩ : ctx0 = sctx ∧ PT.node v0 c0 .nil r = y := by
        have h3 := Prod.mk.injEq .. ▸ hmin
        exact ⟨h3.1, h3.2⟩
      cases hb with
      | red hl hr => exact ⟨v0, .red, r, n, rfl, .red hl hr, hc⟩
      | black hl hr => exact ⟨v0, .black, r, _, rfl, .black hl hr, hc⟩
    | node lv lc ll lr =>
      rw [treeMinimumZ] at hmin
      cases hb with
      | red hl hr =>
        exact ihl .black n _ _ y hl (.redFrame hr hc) (by simp) hmin
      | black hl hr =>
        exact ihl _ _ _ _ y hl (.blackFrame hr hc) (by simp) hmin

theorem insertFixupLoop_balanced {n0 : Nat} : ∀ (ctx : Ctx) (z : PT) (n : Nat),
    CtxBal .black n0 ctx .black n → Balanced z .red n →
    ∃ c1 n1, Balanced (insertFixupLoop ctx z) c1 n1 := by
  intro ctx z
  induction ctx, z using insertFixupLoop.induct with
  | case1 z =>
    intro n hc hz
    exact ⟨.red, n, hz⟩
  | case2 fv fd fs rest z =>
    intro n hc hz
    exact ⟨.black, n0, (hc.any_color .red).fill_balanced hz⟩
  | case3 fv fd fs z =>
    intro n hc hz
    cases hc with
    | redFrame hs hrest => cases hrest
  | case4 fv fd fs gv gc gs rest2 z hred ih =>
    intro n hc hz
    cases hc with
    | redFrame hfs hrest =>
      cases hrest with
      | blackFrame hgs hrest2 =>
        have hcgs := hgs.red_of_isRed hred
        subst hcgs
        have hinner : Balanced (Frame.fill ⟨fv, .black, fd, fs⟩ z) .black (n + 1) := by
          cases fd with
          | left => exact .black hz hfs
          | right => exact .black hfs hz
        simp only [insertFixupLoop]
        rw [if_pos hred]
        exact ih (n + 1) hrest2 (.red hinner hgs.blacken_red)
  | case5 fv fd fs gv gc gs rest2 z hnred =>
    intro n hc hz
    cases hc with
    | redFrame hfs hrest =>
      cases hrest with
      | blackFrame hgs hrest2 =>
        have hcgs := hgs.black_of_not_isRed (by simpa using hnred)
        subst hcgs
        cases fd with
        | right =>
          cases hz with
          | red hzl hzr =>
            simp only [insertFixupLoop]
            rw [if_neg hnred]
            simp only [if_true]
            exact ⟨.black, n0, hrest2.fill_balanced
              (Balanced.black (.red hfs hzl) (.red hzr hgs))⟩
        | left =>
          simp only [insertFixupLoop]
          rw [if_neg hnred]
          exact ⟨.black, n0, hrest2.fill_balanced (Balanced.black hz (.red hfs hgs))⟩
  | case6 fv fd fs gv gc gs rest2 z hred ih =>
    intro n hc hz
    cases hc with
    | redFrame hfs hrest =>
      cases hrest with
      | blackFrame hgs hrest2 =>
        have hcgs := hgs.red_of_isRed hred
        subst hcgs
        have hinner : Balanced (Frame.fill ⟨fv, .black, fd, fs⟩ z) .black (n + 1) := by
          cases fd with
          | left => exact .black hz hfs
          | right => exact .black hfs hz
        simp only [insertFixupLoop]
        rw [if_pos hred]
        exact ih (n + 1) hrest2 (.red hgs.blacken_red hinner)
  | case7 fv fd fs gv gc gs rest2 z hnred =>
    intro n hc hz
    cases hc with
    | redFrame hfs hrest =>
      cases hrest with
      | blackFrame hgs hrest2 =>
        have hcgs := hgs.black_of_not_isRed (by simpa using hnred)
        subst hcgs
        cases fd with
        | left =>
          cases hz with
          | red hzl hzr =>
            simp only [insertFixupLoop]
            rw [if_neg hnred]
            simp only [if_true]
            exact ⟨.black, n0, hrest2.fill_balanced
              (Balanced.black (.red hgs hzl) (.red hzr hfs))⟩
        | right =>
          simp only [insertFixupLoop]
          rw [if_neg hnred]
          exact ⟨.black, n0, hrest2.fill_balanced (Balanced.black (.red hgs hfs) hz)⟩

theorem insert_balanced (t : VisualizableRBTree) (v : Int)
    (h : ∃ n, Balanced t.root .black n) :
    ∃ n, Balanced (t.insert v).root .black n := by
  obtain ⟨n, hb⟩ := h
  cases htr : t.root with
  | nil =>
    simp only [VisualizableRBTree.insert, htr]
    exact ⟨1, .black .nil .nil⟩
  | node rv rc rl rr =>
    rw [htr] at hb
    simp only [VisualizableRBTree.insert, htr]
    cases hgo : insertBstGo (.node rv rc rl rr) v [] with
    | none =>
      simp only [hgo]
      rw [htr]
      exact ⟨n, hb⟩
    | some ctx =>
      simp only [hgo]
      have hctx := insertBstGo_ctxBal _ _ _ _ _ v hb .root hgo
      obtain ⟨c1, n1, hres⟩ := insertFixupLoop_balanced ctx (.node v .red .nil .nil) 0 hctx
        (.red .nil .nil)
      exact hres.blacken

theorem deleteFixupStep_balanced {n0 m : Nat} {f : Frame} {rest : Ctx} {x : PT}
    (hx : Balanced x .black m)
    (hc : CtxBal .black n0 (f :: rest) .black (m + 1)) :
    (match deleteFixupStep f rest x with
     | .inl (ctx2, x2) => ∃ m2, DelFocus x2 m2 ∧ CtxBal .black n0 ctx2 .black (m2 + 1)
     | .inr t => ∃ n2, Balanced t .black n2) := by
  cases hc with
  | redFrame hsib hrest =>
    rename_i fv fd fsib
    cases hsib with
    | black hwl hwr =>
      rename_i wv wl wr cwl cwr
      cases fd with
      | left =>
        cases hwl with
        | nil =>
          cases hwr with
          | nil =>
            exact ⟨0, .redAny hx (.red .nil .nil), hrest.of_red .black⟩
          | red hra hrb =>
            exact ⟨n0, ((hrest.fill_balanced
              (Balanced.red (.black hx .nil) (.black hra hrb))).blacken_keep)⟩
        | red hla hlb =>
          cases hwr with
          | nil =>
            exact ⟨n0, ((hrest.fill_balanced
              (Balanced.red (.black hx hla) (.black hlb .nil))).blacken_keep)⟩
          | red hra hrb =>
            exact ⟨n0, ((hrest.fill_balanced
              (Balanced.red (.black hx (.red hla hlb)) (.black hra hrb))).blacken_keep)⟩
          | black hra hrb =>
            exact ⟨n0, ((hrest.fill_balanced
              (Balanced.red (.black hx hla) (.black hlb (.black hra hrb)))).blacken_keep)⟩
        | black hla hlb =>
          cases hwr with
          | red hra hrb =>
            exact ⟨n0, ((hrest.fill_balanced
              (Balanced.red (.black hx (.black hla hlb)) (.black hra hrb))).blacken_keep)⟩
          | black hra hrb =>
            exact ⟨_, .redAny hx (.red (.black hla hlb) (.black hra hrb)),
              hrest.of_red .black⟩
      | right =>
        cases hwl with
        | nil =>
          cases hwr with
          | nil =>
            exact ⟨0, .redAny (.red .nil .nil) hx, hrest.of_red .black⟩
          | red hra hrb =>
            exact ⟨n0, ((hrest.fill_balanced
              (Balanced.red (.black .nil hra) (.black hrb hx))).blacken_keep)⟩
        | red hla hlb =>
          cases hwr with
          | nil =>
            exact ⟨n0, ((hrest.fill_balanced
              (Balanced.red (.black hla hlb) (.black .nil hx))).blacken_keep)⟩
          | red hra hrb =>
            exact ⟨n0, ((hrest.fill_balanced
              (Balanced.red (.black hla hlb) (.black (.red hra hrb) hx))).blacken_keep)⟩
          | black hra hrb =>
            exact ⟨n0, ((hrest.fill_balanced
              (Balanced.red (.black hla hlb) (.black (.black hra hrb) hx))).blacken_keep)⟩
        | black hla hlb =>
          cases hwr with
          | red hra hrb =>
            exact ⟨n0, ((hrest.fill_balanced
              (Balanced.red (.black (.black hla hlb) hra) (.black hrb hx))).blacken_keep)⟩
          | black hra hrb =>
            exact ⟨_, .redAny (.red (.black hla hlb) (.black hra hrb)) hx,
              hrest.of_red .black⟩
  | blackFrame hsib hrest =>
    rename_i fv fd fsib cs
    cases hsib with
    | red hwl hwr =>
      rename_i wv wl wr
      cases fd with
      | left =>
        cases hwl with
        | black hwl2 hwr2 =>
          rename_i wv2 wl2 wr2 c2l c2r
          cases hwl2 with
          | nil =>
            cases hwr2 with
            | nil =>
              exact ⟨0, .redAny hx (.red .nil .nil), .blackFrame hwr hrest⟩
            | red hra hrb =>
              exact ⟨n0, (((CtxBal.blackFrame hwr hrest).fill_balanced
                (Balanced.red (.black hx .nil) (.black hra hrb))).blacken_keep)⟩
          | red hla hlb =>
            cases hwr2 with
            | nil =>
              exact ⟨n0, (((CtxBal.blackFrame hwr hrest).fill_balanced
                (Balanced.red (.black hx hla) (.black hlb .nil))).blacken_keep)⟩
            | red hra hrb =>
              exact ⟨n0, (((CtxBal.blackFrame hwr hrest).fill_balanced
                (Balanced.red (.black hx (.red hla hlb)) (.black hra hrb))).blacken_keep)⟩
            | black hra hrb =>
              exact ⟨n0, (((CtxBal.blackFrame hwr hrest).fill_balanced
                (Balanced.red (.black hx hla) (.black hlb (.black hra hrb)))).blacken_keep)⟩
          | black hla hlb =>
            cases hwr2 with
            | red hra hrb =>
              exact ⟨n0, (((CtxBal.blackFrame hwr hrest).fill_balanced
                (Balanced.red (.black hx (.black hla hlb)) (.black hra hrb))).blacken_keep)⟩
            | black hra hrb =>
              exact ⟨_, .redAny hx (.red (.black hla hlb) (.black hra hrb)),
                .blackFrame hwr hrest⟩
      | right =>
        cases hwr with
        | black hwl2 hwr2 =>
          rename_i wv2 wl2 wr2 c2l c2r
          cases hwl2 with
          | nil =>
            cases hwr2 with
            | nil =>
              exact ⟨0, .redAny (.red .nil .nil) hx, .blackFrame hwl hrest⟩
            | red hra hrb =>
              exact ⟨n0, (((CtxBal.blackFrame hwl hrest).fill_balanced
                (Balanced.red (.black .nil hra) (.black hrb hx))).blacken_keep)⟩
          | red hla hlb =>
            cases hwr2 with
            | nil =>
              exact ⟨n0, (((CtxBal.blackFrame hwl hrest).fill_balanced
                (Balanced.red (.black hla hlb) (.black .nil hx))).blacken_keep)⟩
            | red hra hrb =>
              exact ⟨n0, (((CtxBal.blackFrame hwl hrest).fill_balanced
                (Balanced.red (.black hla hlb) (.black (.red hra hrb) hx))).blacken_keep)⟩
            | black hra hrb =>
              exact ⟨n0, (((CtxBal.blackFrame hwl hrest).fill_balanced
                (Balanced.red (.black hla hlb) (.black (.black hra hrb) hx))).blacken_keep)⟩
          | black hla hlb =>
            cases hwr2 with
            | red hra hrb =>
              exact ⟨n0, (((CtxBal.blackFrame hwl hrest).fill_balanced
                (Balanced.red (.black (.black hla hlb) hra) (.black hrb hx))).blacken_keep)⟩
            | black hra hrb =>
              exact ⟨_, .redAny (.red (.black hla hlb) (.black hra hrb)) hx,
                .blackFrame hwl hrest⟩
    | black hwl hwr =>
      rename_i wv wl wr cwl cwr
      cases fd with
      | left =>
        cases hwl with
        | nil =>
          cases hwr with
          | nil =>
            exact ⟨1, .black (.black hx (.red .nil .nil)), hrest⟩
          | red hra hrb =>
            exact ⟨n0, ((hrest.fill_balanced
              (Balanced.black (.black hx .nil) (.black hra hrb))).blacken_keep)⟩
        | red hla hlb =>
          cases hwr with
          | nil =>
            exact ⟨n0, ((hrest.fill_balanced
              (Balanced.black (.black hx hla) (.black hlb .nil))).blacken_keep)⟩
          | red hra hrb =>
            exact ⟨n0, ((hrest.fill_balanced
              (Balanced.black (.black hx (.red hla hlb)) (.black hra hrb))).blacken_keep)⟩
          | black hra hrb =>
            exact ⟨n0, ((hrest.fill_balanced
              (Balanced.black (.black hx hla) (.black hlb (.black hra hrb)))).blacken_keep)⟩
        | black hla hlb =>
          cases hwr with
          | red hra hrb =>
            exact ⟨n0, ((hrest.fill_balanced
              (Balanced.black (.black hx (.black hla hlb)) (.black hra hrb))).blacken_keep)⟩
          | black hra hrb =>
            exact ⟨_, .black (.black hx (.red (.black hla hlb) (.black hra hrb))), hrest⟩
      | right =>
        cases hwl with
        | nil =>
          cases hwr with
          | nil =>
            exact ⟨1, .black (.black (.red .nil .nil) hx), hrest⟩
          | red hra hrb =>
            exact ⟨n0, ((hrest.fill_balanced
              (Balanced.black (.black .nil hra) (.black hrb hx))).blacken_keep)⟩
        | red hla hlb =>
          cases hwr with
          | nil =>
            exact ⟨n0, ((hrest.fill_balanced
              (Balanced.black (.black hla hlb) (.black .nil hx))).blacken_keep)⟩
          | red hra hrb =>
            exact ⟨n0, ((hrest.fill_balanced
              (Balanced.black (.black hla hlb) (.black (.red hra hrb) hx))).blacken_keep)⟩
          | black hra hrb =>
            exact ⟨n0, ((hrest.fill_balanced
              (Balanced.black (.black hla hlb) (.black (.black hra hrb) hx))).blacken_keep)⟩
        | black hla hlb =>
          cases hwr with
          | red hra hrb =>
            exact ⟨n0, ((hrest.fill_balanced
              (Balanced.black (.black (.black hla hlb) hra) (.black hrb hx))).blacken_keep)⟩
          | black hra hrb =>
            exact ⟨_, .black (.black (.red (.black hla hlb) (.black hra hrb)) hx), hrest⟩

end Dsav
